import Mathlib

/-!
Verification of the attention/encoding layer library in `rc/models/layers.py`.

The tensor code is embedded shallowly over exact rationals:

* A vector is a `List ℚ`; a (batch, time, feat) tensor is a nested list.
* A pre-normalization attention score is an `Option ℚ`, with `none` playing
  the role of the `-inf` written by `masked_fill_` (exp of `-inf` is `0`).
* The exponential inside `softmax` is an abstract parameter `e : ℚ → ℚ`;
  every theorem assumes `∀ q, 0 < e q`, which is the only property of the
  real exponential the masking invariants use.  With that convention a
  softmax row whose entries are all `-inf` has denominator `0`, i.e. the
  IEEE result would be a row of NaNs; `softmaxRow` returns `none` entries
  for that case (post-softmax `none` = NaN).
* `log` inside `multi_nll_loss` is likewise an abstract `l : ℚ → ℚ` with
  `l 1 = 0`; the IEEE special values `log 0 = -inf` (hence a `+inf` loss
  term) and `log (0/0) = NaN` are modelled by an explicit `LossVal` type.
-/

/-- A feature vector (one row of a 2-D tensor). -/
abbrev V := List ℚ

/-- Dot product of two vectors (`torch.dot`, used to expand `mm`/`bmm`). -/
def dot (a b : V) : ℚ := (List.zipWith (fun q r => q * r) a b).sum

/-- Parameters of an `nn.Linear(in_features, out_features)` module:
one weight row and one bias entry per output feature. -/
structure LinParams where
  weight : List V
  bias : V

/-- `nn.Linear` application: `W v + b`. -/
def linApp (p : LinParams) (v : V) : V :=
  List.zipWith (fun row bi => dot row v + bi) p.weight p.bias

/-- `F.relu` on a vector. -/
def reluV (v : V) : V := v.map (fun q => max q 0)

/-- Map with the element index (used to build index-dependent tensors). -/
def mapIdx {α β : Type} (f : ℕ → α → β) (l : List α) : List β :=
  List.zipWith f (List.range l.length) l

/-- `exp` of a possibly `-inf` score: `exp (-inf) = 0`, otherwise the
abstract positive exponential `e`. -/
def expE (e : ℚ → ℚ) : Option ℚ → ℚ
  | none => 0
  | some q => e q

/-- `F.softmax` along a row of masked scores.  If every entry is `-inf`
the denominator is `0` and the IEEE result is a row of NaNs (`none`);
otherwise each entry becomes `exp sᵢ / Σⱼ exp sⱼ`. -/
def softmaxRow (e : ℚ → ℚ) (row : List (Option ℚ)) : List (Option ℚ) :=
  let den := (row.map (expE e)).sum
  if den = 0 then row.map (fun _ => none)
  else row.map (fun s => some (expE e s / den))

/-- `scores.masked_fill_(mask, -inf)`: positions where the mask is `true`
(padding) become `-inf` (`none`). -/
def maskRow (scores : List ℚ) (m : List Bool) : List (Option ℚ) :=
  List.zipWith (fun q b => if b then none else some q) scores m

/-- Total probability mass a softmax output assigns to the unmasked
(`mask = false`) positions of its row. -/
def unmaskedMass (m : List Bool) (out : List (Option ℚ)) : ℚ :=
  (List.zipWith (fun b o => if b then 0 else Option.getD o 0) m out).sum

/-- `LinearSeqAttn.forward` (layers.py:303-312): score each position with the
scalar linear head `w·xᵢ + b`, mask padding to `-inf`, softmax each row. -/
def LinearSeqAttn.forward (w : V) (b : ℚ) (e : ℚ → ℚ)
    (x : List (List V)) (x_mask : List (List Bool)) : List (List (Option ℚ)) :=
  List.zipWith (fun xb mb =>
    softmaxRow e (maskRow (xb.map (fun xi => dot w xi + b)) mb)) x x_mask

/-- The optional shared projection + ReLU of `SeqAttnMatch` (`identity=True`
gives `none`, skipping the projection). -/
def projRelu (lin : Option LinParams) (s : List V) : List V :=
  match lin with
  | none => s
  | some p => s.map (fun v => reluV (linApp p v))

/-- The normalized attention weights computed inside `SeqAttnMatch.forward`
(layers.py:246-264): project (optionally), score `x_proj·y_projᵀ`, mask the
question padding broadcast over `len1`, softmax along `len2`. -/
def SeqAttnMatch.alpha (lin : Option LinParams) (e : ℚ → ℚ)
    (x y : List (List V)) (y_mask : List (List Bool)) :
    List (List (List (Option ℚ))) :=
  List.zipWith (fun xb yb =>
    let xp := projRelu lin xb
    let yp := projRelu lin yb.1
    xp.map (fun xi =>
      softmaxRow e (List.zipWith (fun yj mj => if mj then none else some (dot xi yj)) yp yb.2)))
    x (y.zip y_mask)

/-- Sum of a list of possibly-NaN values; any NaN poisons the result. -/
def optSum (l : List (Option ℚ)) : Option ℚ :=
  l.foldr (fun a s =>
    match a, s with
    | some q, some t => some (q + t)
    | _, _ => none) (some 0)

/-- One output vector of a batched matrix product: weights `w` (a softmax
row, possibly NaN) against the rows `ys`, for each of `h` feature columns. -/
def wsumVec (w : List (Option ℚ)) (ys : List V) (h : ℕ) : List (Option ℚ) :=
  (List.range h).map (fun k =>
    optSum (List.zipWith (fun a yj => a.map (fun q => q * yj.getD k 0)) w ys))

/-- `alpha.bmm(y)`: batched matrix product of attention weights against `y`
(`h` is the feature width `input_size`). -/
def bmm3 (alpha : List (List (List (Option ℚ)))) (y : List (List V)) (h : ℕ) :
    List (List (List (Option ℚ))) :=
  List.zipWith (fun arows yb => arows.map (fun wrow => wsumVec wrow yb h)) alpha y

/-- `SeqAttnMatch.forward` (layers.py:238-268), written out end to end:
optional shared projection + ReLU, score matrix, mask, softmax, and the
final `alpha.bmm(y)` against the unprojected `y`. -/
def SeqAttnMatch.forward (lin : Option LinParams) (h : ℕ) (e : ℚ → ℚ)
    (x y : List (List V)) (y_mask : List (List Bool)) :
    List (List (List (Option ℚ))) :=
  List.zipWith (fun xb yb =>
    let xp := projRelu lin xb
    let yp := projRelu lin yb.1
    (xp.map (fun xi =>
      softmaxRow e (List.zipWith (fun yj mj => if mj then none else some (dot xi yj)) yp yb.2))).map
      (fun wrow => wsumVec wrow yb.1 h))
    x (y.zip y_mask)

/-- `BilinearSeqAttn.forward` (layers.py:282-292) composed with `exp`.
The source returns `F.log_softmax(xWy.masked_fill_(x_mask, -inf))`; since
`exp (log_softmax v) = softmax v` exactly (and `exp (log 0) = exp (-inf) = 0`
at masked entries), the exponentiated output is the softmax of the masked
bilinear scores, which is what we embed. -/
def BilinearSeqAttn.forwardExp (lin : Option LinParams) (e : ℚ → ℚ)
    (x : List (List V)) (y : List V) (x_mask : List (List Bool)) :
    List (List (Option ℚ)) :=
  List.zipWith (fun xb yb =>
    let Wy := match lin with
      | none => yb.1
      | some p => linApp p yb.1
    softmaxRow e (maskRow (xb.map (fun xi => dot xi Wy)) yb.2))
    x (y.zip x_mask)

/-- The Python exception kinds the embedded code can raise. -/
inductive PyError where
  | notImplementedError
  | attributeError
  | indexError
  | zeroDimIndexError
  | packLengthError
deriving DecidableEq, Repr

/-- `|i - j|`, the entry of `toeplitz(arange(n))` at `(i, j)`
(layers.py:196). -/
def distQ (i j : ℕ) : ℚ := ((max i j - min i j : ℕ) : ℚ)

/-- The additive recency bias at an unmasked entry `(i, j)`
(layers.py:207-211): `recency_weight * |i - j|` when `recency_bias` is on
(`recency = some w`), `0` otherwise.  At masked entries the recency matrix
is first zeroed (layers.py:208), and adding `0` to `-inf` keeps `-inf`, so
masked entries stay `-inf` either way. -/
def recencyTerm (recency : Option ℚ) (i j : ℕ) : ℚ :=
  match recency with
  | none => 0
  | some w => w * distQ i j

/-- `SentenceHistoryAttn.forward` (layers.py:175-223) for the only
constructible configuration `use_current_timestep = False` (the `True`
branch raises `NotImplementedError` in `__init__`, layers.py:167-168).
`recency = some w` models `recency_bias = True` with learned scalar `w`.
Steps: project + ReLU, all-pairs scores `x_proj·x_projᵀ`, `triu` mask with
`diagonal = 0` (entry `(i, j)` masked iff `i ≤ j`) filled with `-inf`, the
recency term zeroed at masked entries and added, softmax along each row,
and finally `scores[0] = zeros` (which raises `IndexError` when `x` is
empty, since `scores` then has no row 0). -/
def SentenceHistoryAttn.forward (lin : LinParams) (recency : Option ℚ)
    (e : ℚ → ℚ) (x : List V) : Except PyError (List (List (Option ℚ))) :=
  let xp := x.map (fun v => reluV (linApp lin v))
  let rows := mapIdx (fun i vi =>
    softmaxRow e (mapIdx (fun j vj =>
      if i ≤ j then none
      else some (dot vi vj + recencyTerm recency i j)) xp)) xp
  match rows with
  | [] => Except.error PyError.indexError
  | _ :: rest => Except.ok (List.replicate x.length (some (0 : ℚ)) :: rest)

/-- The `WordHistoryAttn` module state after `__init__` (layers.py:126-133):
which instance attributes were assigned. -/
structure WordHistoryAttn where
  recency_bias : Bool
  cudaFlag : Bool

/-- The attribute names set on a `WordHistoryAttn` instance by `__init__`.
`question_hiddens` is never among them. -/
def WordHistoryAttn.attrs (m : WordHistoryAttn) : List String :=
  ["linear", "recency_bias", "cuda"] ++
    (if m.recency_bias then ["recency_weight"] else [])

/-- `WordHistoryAttn.forward` (layers.py:135-151).  Its body is the bare
attribute access `self.question_hiddens` followed by `pass`; since
`__init__` never assigns that attribute, the lookup raises
`AttributeError` (it does not raise `NotImplementedError`). -/
def WordHistoryAttn.forward (m : WordHistoryAttn)
    (question_hiddens : List (List V)) (question_hidden : List V)
    (q_mask : List (List Bool)) : Except PyError Unit :=
  if "question_hiddens" ∈ m.attrs then Except.ok ()
  else Except.error PyError.attributeError

/-- `uniform_weights` (layers.py:342-344): the body is
`raise NotImplementedError`. -/
def uniform_weights (x : List (List V)) (x_mask : List (List Bool)) :
    Except PyError (List (List ℚ)) :=
  Except.error PyError.notImplementedError

/-- `dropout` (layers.py:319-328) on a (batch, time, feat) tensor.
If `drop_prob = 0` or not training it returns `x` unchanged; otherwise the
Bernoulli draw (an explicit random source `bern`, already in `{0, 1}`) is
sampled once per kept index — an axis listed in `shared_axes` has its mask
index collapsed to `0`, modelling `sz[i] = 1` plus `expand_as` — scaled by
`1 / (1 - drop_prob)` and multiplied in elementwise. -/
def dropout3 (x : List (List V)) (drop_prob : ℚ) (shared_axes : List ℕ)
    (training : Bool) (bern : ℕ → ℕ → ℕ → ℚ) : List (List V) :=
  if drop_prob = 0 ∨ training = false then x
  else
    mapIdx (fun i rows => mapIdx (fun j v => mapIdx (fun k q =>
      q * (bern (if 0 ∈ shared_axes then 0 else i)
             (if 1 ∈ shared_axes then 0 else j)
             (if 2 ∈ shared_axes then 0 else k) / (1 - drop_prob))) v) rows) x

/-- `dropout` (layers.py:319-328) on a (batch, feat) tensor (the
`return_single_timestep` output of `StackedBRNN`). -/
def dropout2 (x : List V) (drop_prob : ℚ) (shared_axes : List ℕ)
    (training : Bool) (bern : ℕ → ℕ → ℚ) : List V :=
  if drop_prob = 0 ∨ training = false then x
  else
    mapIdx (fun i v => mapIdx (fun j q =>
      q * (bern (if 0 ∈ shared_axes then 0 else i)
             (if 1 ∈ shared_axes then 0 else j) / (1 - drop_prob))) v) x

/-- An IEEE-style scalar loss value: finite, `+inf` (from `-log 0`), or
NaN (from `log (0/0)` on an all-empty row). -/
inductive LossVal where
  | nan
  | inf
  | fin (q : ℚ)
deriving DecidableEq, Repr

/-- Addition of loss terms with IEEE propagation (no `-inf` ever arises:
each row term is `-log` of a ratio in `[0, 1]`). -/
def LossVal.add : LossVal → LossVal → LossVal
  | LossVal.nan, _ => LossVal.nan
  | _, LossVal.nan => LossVal.nan
  | LossVal.inf, _ => LossVal.inf
  | _, LossVal.inf => LossVal.inf
  | LossVal.fin a, LossVal.fin b => LossVal.fin (a + b)

/-- The exponentiated score mass `masked_select(scores[i].exp(), mask[i]).sum()`
at the selected positions of one row. -/
def selMass (e : ℚ → ℚ) (row : List ℚ) (m : List Bool) : ℚ :=
  (List.zipWith (fun q b => if b then e q else 0) row m).sum

/-- One row's term of `multi_nll_loss`:
`-log (selected mass / total mass)`, with `log (0/0) = NaN` on a row whose
total mass is `0` (an empty row) and `-log 0 = +inf` when the target mask
selects no mass. -/
def rowLoss (e l : ℚ → ℚ) (row : List ℚ) (m : List Bool) : LossVal :=
  let den := (row.map e).sum
  let num := selMass e row m
  if den = 0 then LossVal.nan
  else if num = 0 then LossVal.inf
  else LossVal.fin (-(l (num / den)))

/-- `multi_nll_loss` (layers.py:331-339): exponentiate the scores, and sum
over batch rows the negative log of (target-mass / row-mass), starting
from the Python integer `0`. -/
def multi_nll_loss (e l : ℚ → ℚ) (scores : List (List ℚ))
    (target_mask : List (List Bool)) : LossVal :=
  (List.zipWith (rowLoss e l) scores target_mask).foldl LossVal.add (LossVal.fin 0)

/-- One recurrent layer of `StackedBRNN` as a per-sequence capability:
`cell` is the full-sequence output `rnn(input)[0]` for one batch element,
`finalH` is `hn[-1]` for that element, and `hdim` the output feature width
(used by `pad_packed_sequence` to zero-pad). -/
structure Layer where
  cell : List V → List V
  finalH : List V → V
  hdim : ℕ

/-- `x_mask.eq(0).long().sum(1)` for one mask row: the number of non-padding
positions, i.e. the true sequence length. -/
def countNonPad (row : List Bool) : ℕ :=
  (row.map (fun b => if b then 0 else 1)).sum

/-- The result of `.squeeze()` on a 1-D tensor: a batch of size 1 collapses
to a 0-dimensional scalar. -/
inductive Squeezed where
  | scalar (v : ℕ)
  | vec (l : List ℕ)
deriving DecidableEq, Repr

/-- `.squeeze()` on a 1-D integer tensor. -/
def squeeze1 (l : List ℕ) : Squeezed :=
  if l.length = 1 then Squeezed.scalar (l.headD 0) else Squeezed.vec l

/-- `lengths = x_mask.eq(0).long().sum(1).squeeze()` (layers.py:74). -/
def brnnLengths (x_mask : List (List Bool)) : Squeezed :=
  squeeze1 (x_mask.map countNonPad)

/-- `torch.sort(l, descending=True)`'s index output: a permutation of
`range l.length` pulling the values into descending order (stable
insertion sort; any tie order satisfies the theorems below). -/
def argsortDesc (l : List ℕ) : List ℕ :=
  (List.insertionSort (fun a b : ℕ × ℕ => b.2 ≤ a.2)
    (mapIdx (fun i v => (i, v)) l)).map Prod.fst

/-- `torch.sort(l)`'s (ascending) index output. -/
def argsortAsc (l : List ℕ) : List ℕ :=
  (List.insertionSort (fun a b : ℕ × ℕ => a.2 ≤ b.2)
    (mapIdx (fun i v => (i, v)) l)).map Prod.fst

/-- `pad_packed_sequence`'s zero padding of one output sequence up to the
longest length in the batch (`h` columns of zeros per missing step). -/
def padTo (n h : ℕ) (l : List V) : List V :=
  l ++ List.replicate (n - l.length) (List.replicate h 0)

/-- `output.index_select(0, perm)` on a batch of rows. -/
def unsortRows {α : Type} (perm : List ℕ) (rows : List (List α)) : List (List α) :=
  perm.map (fun i => rows.getD i [])

/-- `torch.cat(outputs, 2)`: concatenate per-layer outputs along the
feature axis, per batch element and timestep. -/
def catFeat : List (List (List V)) → List (List V)
  | [] => []
  | [o] => o
  | o :: rest => List.zipWith (List.zipWith (fun a b => a ++ b)) o (catFeat rest)

/-- The layer loop of `_forward_unpadded` (layers.py:48-56): dropout on the
layer input, run the layer on every batch element, collect each layer's
output.  `idx` numbers the dropout calls for the random source. -/
def runLayersU (dropRate : ℚ) (variational training : Bool)
    (bern : ℕ → ℕ → ℕ → ℕ → ℚ) :
    List Layer → ℕ → List (List V) → List (List (List V))
  | [], _, _ => []
  | l :: rest, idx, cur =>
    let inp := dropout3 cur dropRate (if variational then [1] else []) training (bern idx)
    let out := inp.map l.cell
    out :: runLayersU dropRate variational training bern rest (idx + 1) out

/-- `StackedBRNN._forward_unpadded` (layers.py:44-68). -/
def StackedBRNN.forwardUnpadded (layers : List Layer) (dropRate : ℚ)
    (variational training concatLayers dropoutOutput : Bool)
    (bern : ℕ → ℕ → ℕ → ℕ → ℚ) (x : List (List V)) : List (List V) :=
  let outs := runLayersU dropRate variational training bern layers 0 x
  let output := if concatLayers then catFeat outs else outs.getLastD x
  if dropoutOutput then
    dropout3 output dropRate (if variational then [1] else []) training
      (bern layers.length)
  else output

/-- The output of `StackedBRNN._forward_padded`: the final hidden state per
sequence (`return_single_timestep`) or the full sequence encodings. -/
inductive BrnnOut where
  | single (h : List V)
  | seq (o : List (List V))
deriving DecidableEq, Repr

/-- The layer loop of `_forward_padded` (layers.py:84-98): optional input
dropout, `pack_padded_sequence` (truncate every sorted batch element to its
true length; raises when some length is `0`), run the layer,
`pad_packed_sequence` (zero-pad each output back to the longest length in
the batch), collecting full outputs and the `hn[-1]` states. -/
def runLayersP (dropRate : ℚ) (variational training : Bool)
    (bern : ℕ → ℕ → ℕ → ℕ → ℚ) (sortedLengths : List ℕ) (maxLen : ℕ) :
    List Layer → ℕ → List (List V) →
    Except PyError (List (List (List V)) × List (List V))
  | [], _, _ => Except.ok ([], [])
  | l :: rest, idx, cur =>
    let inp := if 0 < dropRate then
      dropout3 cur dropRate (if variational then [1] else []) training (bern idx)
    else cur
    if sortedLengths.any (fun m => m = 0) then Except.error PyError.packLengthError
    else
      let out := List.zipWith (fun s len => padTo maxLen l.hdim (l.cell (s.take len)))
        inp sortedLengths
      let hn := List.zipWith (fun s len => l.finalH (s.take len)) inp sortedLengths
      match runLayersP dropRate variational training bern sortedLengths maxLen
        rest (idx + 1) out with
      | Except.error err => Except.error err
      | Except.ok (outs, hns) => Except.ok (out :: outs, hn :: hns)

/-- `StackedBRNN._forward_padded` (layers.py:70-115): compute true lengths
from the mask and `squeeze()` (a batch of size 1 collapses to a 0-dim
scalar, and the subsequent `lengths[idx_sort]` indexing of a 0-dim tensor
raises); sort the batch by descending length; run the packed layer loop;
select `hn[-1]` / concatenated layers / last layer; restore the original
order with the inverse permutation; optional output dropout. -/
def StackedBRNN.forwardPadded (layers : List Layer) (dropRate : ℚ)
    (variational training concatLayers dropoutOutput returnSingleTimestep : Bool)
    (bern : ℕ → ℕ → ℕ → ℕ → ℚ) (x : List (List V))
    (x_mask : List (List Bool)) : Except PyError BrnnOut :=
  match brnnLengths x_mask with
  | Squeezed.scalar _ => Except.error PyError.zeroDimIndexError
  | Squeezed.vec lengths =>
    let idxSort := argsortDesc lengths
    let idxUnsort := argsortAsc idxSort
    let sortedLengths := idxSort.map (fun i => lengths.getD i 0)
    let maxLen := sortedLengths.foldr max 0
    let rnnInput := idxSort.map (fun i => x.getD i [])
    match runLayersP dropRate variational training bern sortedLengths maxLen
      layers 0 rnnInput with
    | Except.error err => Except.error err
    | Except.ok (outs, hns) =>
      let selected : Except PyError BrnnOut :=
        if returnSingleTimestep then
          match hns.getLast? with
          | none => Except.error PyError.indexError
          | some hlast => Except.ok (BrnnOut.single
              (idxUnsort.map (fun i => hlast.getD i [])))
        else if concatLayers then
          match outs with
          | [] => Except.error PyError.indexError
          | _ => Except.ok (BrnnOut.seq (unsortRows idxUnsort (catFeat outs)))
        else Except.ok (BrnnOut.seq (unsortRows idxUnsort (outs.getLastD rnnInput)))
      match selected with
      | Except.error err => Except.error err
      | Except.ok out0 =>
        Except.ok (if dropoutOutput ∧ 0 < dropRate then
          match out0 with
          | BrnnOut.single hvec => BrnnOut.single (dropout2 hvec dropRate
              (if variational then [1] else []) training
              (fun i j => bern layers.length i j 0))
          | BrnnOut.seq rows => BrnnOut.seq (dropout3 rows dropRate
              (if variational then [1] else []) training (bern layers.length))
        else out0)

/-- One layer step of the padded path seen from a single batch element:
truncate to the true length, run the cell, zero-pad back to the longest
batch length. -/
def encodeStep (maxLen len : ℕ) (l : Layer) (s : List V) : List V :=
  padTo maxLen l.hdim (l.cell (s.take len))

/-- The padded path's whole per-element pipeline (dropout disabled). -/
def encodeChain (layers : List Layer) (maxLen len : ℕ) (s : List V) : List V :=
  layers.foldl (fun acc l => encodeStep maxLen len l acc) s

/-! ### General lemmas about sums and masked softmax rows -/

theorem listSum_pos_of_mem {l : List ℚ} {a : ℚ} (h0 : ∀ b ∈ l, 0 ≤ b)
    (ha : a ∈ l) (hpos : 0 < a) : 0 < l.sum := by
  induction l with
  | nil => cases ha
  | cons b t ih =>
    rcases List.mem_cons.mp ha with rfl | hat
    · have ht : 0 ≤ t.sum := List.sum_nonneg (fun q hq => h0 q (List.mem_cons_of_mem _ hq))
      simpa using add_pos_of_pos_of_nonneg hpos ht
    · have hb : 0 ≤ b := h0 b (List.mem_cons_self _ _)
      have ht := ih (fun q hq => h0 q (List.mem_cons_of_mem _ hq)) hat
      simpa using add_pos_of_nonneg_of_pos hb ht

theorem expE_nonneg (e : ℚ → ℚ) (he : ∀ q, 0 < e q) (s : Option ℚ) : 0 ≤ expE e s := by
  cases s with
  | none => exact le_refl 0
  | some q => exact le_of_lt (he q)

/-- The softmax denominator is positive as soon as one row entry is not
`-inf` (and the exponential is positive). -/
theorem softmaxDen_pos (e : ℚ → ℚ) (he : ∀ q, 0 < e q) (row : List (Option ℚ))
    (j : ℕ) (hj : j < row.length) (hs : (row.getD j none).isSome) :
    0 < (row.map (expE e)).sum := by
  rw [List.getD_eq_getElem row none hj] at hs
  obtain ⟨q, hq⟩ := Option.isSome_iff_exists.mp hs
  have hmem : expE e row[j] ∈ row.map (expE e) := by
    have hjm : j < (row.map (expE e)).length := by
      rw [List.length_map]
      omega
    have hget : (row.map (expE e))[j] = expE e row[j] := List.getElem_map _
    exact hget ▸ List.getElem_mem hjm
  refine listSum_pos_of_mem ?_ hmem ?_
  · intro b hb
    obtain ⟨s, _, rfl⟩ := List.mem_map.mp hb
    exact expE_nonneg e he s
  · rw [hq]
    exact he q

theorem softmaxRow_eq_map (e : ℚ → ℚ) (row : List (Option ℚ))
    (hden : (row.map (expE e)).sum ≠ 0) :
    softmaxRow e row = row.map (fun s => some (expE e s / (row.map (expE e)).sum)) := by
  simp [softmaxRow, hden]

/-- Core masking invariant: as soon as a row has at least one unmasked
position, the softmax of the `-inf`-masked scores puts exactly `0` on
every masked position and total mass `1` on the unmasked ones. -/
theorem maskedSoftmax_spec (e : ℚ → ℚ) (he : ∀ q, 0 < e q)
    (scores : List ℚ) (m : List Bool)
    (hlen : scores.length = m.length) (hum : false ∈ m) :
    (softmaxRow e (maskRow scores m)).length = m.length ∧
    (∀ j, j < m.length → m.getD j true = true →
      (softmaxRow e (maskRow scores m)).getD j none = some 0) ∧
    unmaskedMass m (softmaxRow e (maskRow scores m)) = 1 := by
  have hrl : (maskRow scores m).length = m.length := by
    simp [maskRow, List.length_zipWith, hlen]
  obtain ⟨j0, hj0, hmj0⟩ := List.mem_iff_getElem.mp hum
  have hrow : ∀ j (hj : j < m.length) (hj2 : j < (maskRow scores m).length)
      (hj3 : j < scores.length),
      (maskRow scores m)[j] = if m[j] then none else some scores[j] := by
    intro j hj hj2 hj3
    simp [maskRow, List.getElem_zipWith]
  have hs0 : ((maskRow scores m).getD j0 none).isSome := by
    rw [List.getD_eq_getElem _ none (by omega), hrow j0 hj0 (by omega) (by omega), hmj0]
    simp
  have hden : 0 < ((maskRow scores m).map (expE e)).sum :=
    softmaxDen_pos e he _ j0 (by omega) hs0
  have hden' : ((maskRow scores m).map (expE e)).sum ≠ 0 := ne_of_gt hden
  have hout := softmaxRow_eq_map e (maskRow scores m) hden'
  refine ⟨by simp [hout, hrl], ?_, ?_⟩
  · intro j hj hmj
    rw [List.getD_eq_getElem _ true hj] at hmj
    rw [hout, List.getD_eq_getElem _ none (by simp [hrl]; omega), List.getElem_map,
      hrow j hj (by omega) (by omega), hmj]
    simp [expE]
  · unfold unmaskedMass
    have hzw : List.zipWith (fun b o => if b then 0 else Option.getD o 0) m
        (softmaxRow e (maskRow scores m)) =
        (maskRow scores m).map
          (fun s => expE e s / ((maskRow scores m).map (expE e)).sum) := by
      apply List.ext_getElem
      · simp [hout, hrl, List.length_zipWith]
      · intro j h1 h2
        have hj : j < m.length := by
          simpa [List.length_zipWith, hout, hrl] using h1
        have hjr : j < (maskRow scores m).length := by omega
        rw [List.getElem_zipWith, List.getElem_map]
        have hjo : j < (softmaxRow e (maskRow scores m)).length := by
          rw [hout, List.length_map]
          omega
        have houtj : (softmaxRow e (maskRow scores m))[j] =
            some (expE e (maskRow scores m)[j] /
              ((maskRow scores m).map (expE e)).sum) := by
          simp only [hout, List.getElem_map]
        rw [houtj, hrow j hj (by omega) (by omega)]
        by_cases hmj : m[j]
        · simp [hmj, expE]
        · simp [hmj, expE]
    rw [hzw]
    have hmc : (maskRow scores m).map
        (fun s => expE e s / ((maskRow scores m).map (expE e)).sum) =
        (maskRow scores m).map
          (fun s => expE e s * (((maskRow scores m).map (expE e)).sum)⁻¹) := by
      apply List.map_congr_left
      intro s _
      rw [div_eq_mul_inv]
    rw [hmc, List.sum_map_mul_right, mul_inv_cancel₀ hden']

/-! ### Claim C8 -/

/-- Claim C8: for every input tensor, shared-axes list and drop probability,
`dropout` is the identity whenever `drop_prob = 0` or training is off
(layers.py:320-321); stated for the 3-D and 2-D tensor shapes the module
uses. -/
theorem dropout_zero_or_eval_identity :
    ∀ (x3 : List (List V)) (x2 : List V) (p : ℚ) (axes : List ℕ) (training : Bool)
      (bern3 : ℕ → ℕ → ℕ → ℚ) (bern2 : ℕ → ℕ → ℚ),
      p = 0 ∨ training = false →
      dropout3 x3 p axes training bern3 = x3 ∧ dropout2 x2 p axes training bern2 = x2 := by
  intro x3 x2 p axes training bern3 bern2 hside
  constructor
  · unfold dropout3
    rw [if_pos hside]
  · unfold dropout2
    rw [if_pos hside]

/-- Witness for C8 at concrete inputs (probability `0` while training, and a
non-zero probability outside training). -/
theorem dropout_zero_or_eval_identity_w :
    ((0 : ℚ) = 0 ∨ true = false) ∧
    dropout3 [[[5, 7]]] 0 [1] true (fun _ _ _ => 9) = [[[5, 7]]] ∧
    ((1 / 2 : ℚ) = 0 ∨ false = false) ∧
    dropout2 [[3]] (1 / 2) [] false (fun _ _ => 9) = [[3]] :=
  ⟨Or.inl rfl,
   (dropout_zero_or_eval_identity [[[5, 7]]] [[3]] 0 [1] true (fun _ _ _ => 9)
     (fun _ _ => 9) (Or.inl rfl)).1,
   Or.inr rfl,
   (dropout_zero_or_eval_identity [[[5, 7]]] [[3]] (1 / 2) [] false (fun _ _ _ => 9)
     (fun _ _ => 9) (Or.inr rfl)).2⟩

/-! ### Claim C4 -/

/-- Claim C4 counterexample: `WordHistoryAttn.forward` does not fail with a
not-implemented error — its body is the attribute access
`self.question_hiddens` on an attribute `__init__` never assigns, so the
failure is an `AttributeError`. -/
theorem wordHistoryAttn_not_notImplemented_cex :
    WordHistoryAttn.forward ⟨false, false⟩ [] [] [] =
      Except.error PyError.attributeError ∧
    PyError.attributeError ≠ PyError.notImplementedError := by
  exact ⟨rfl, by decide⟩

/-- Claim C4 (amended): `uniform_weights` fails with an explicit
`NotImplementedError` on every input; `WordHistoryAttn.forward` also fails
on every input and never returns a value, but with an `AttributeError`
(the unassigned `self.question_hiddens`), not a not-implemented error. -/
theorem stubs_always_fail (m : WordHistoryAttn) (qh : List (List V)) (qhid : List V)
    (qm : List (List Bool)) (x : List (List V)) (xm : List (List Bool)) :
    uniform_weights x xm = Except.error PyError.notImplementedError ∧
    WordHistoryAttn.forward m qh qhid qm = Except.error PyError.attributeError := by
  refine ⟨rfl, ?_⟩
  have hnm : ¬ ("question_hiddens" ∈ m.attrs) := by
    cases m with
    | mk rb cf => cases rb <;> cases cf <;> decide
  simp [WordHistoryAttn.forward, hnm]

/-! ### Claim C9 -/

/-- Claim C9: for a batch of one sequence, `squeeze()` collapses the length
vector to a 0-dimensional scalar (layers.py:74), so the sort/indexing that
follows raises and `_forward_padded` returns no encoding. -/
theorem forwardPadded_batch1_raises :
    ∀ (layers : List Layer) (dropRate : ℚ)
      (variational training concatLayers dropoutOutput retS : Bool)
      (bern : ℕ → ℕ → ℕ → ℕ → ℚ) (x : List (List V)) (x_mask : List (List Bool)),
      x_mask.length = 1 →
      StackedBRNN.forwardPadded layers dropRate variational training concatLayers
        dropoutOutput retS bern x x_mask = Except.error PyError.zeroDimIndexError := by
  intro layers dropRate variational training concatLayers dropoutOutput retS bern x x_mask h1
  have hsc : brnnLengths x_mask =
      Squeezed.scalar ((x_mask.map countNonPad).headD 0) := by
    simp [brnnLengths, squeeze1, List.length_map, h1]
  simp [StackedBRNN.forwardPadded, hsc]

/-- Witness for C9: a concrete batch of one sequence. -/
theorem forwardPadded_batch1_raises_w :
    ([[false, false]] : List (List Bool)).length = 1 ∧
    StackedBRNN.forwardPadded [] 0 false true false false false (fun _ _ _ _ => 0)
      [[[1], [2]]] [[false, false]] = Except.error PyError.zeroDimIndexError := by
  refine ⟨rfl, ?_⟩
  exact forwardPadded_batch1_raises [] 0 false true false false false
    (fun _ _ _ _ => 0) [[[1], [2]]] [[false, false]] rfl

/-! ### Claim C6 -/

/-- Claim C6: `SeqAttnMatch.forward`'s output is exactly the batched matrix
product of the normalized attention weights with the original, unprojected
`y` (layers.py:267): `matched_seq = alpha.bmm(y)`. -/
theorem seqAttnMatch_forward_is_bmm_alpha_y :
    ∀ (lin : Option LinParams) (h : ℕ) (e : ℚ → ℚ) (x y : List (List V))
      (y_mask : List (List Bool)),
      SeqAttnMatch.forward lin h e x y y_mask =
        bmm3 (SeqAttnMatch.alpha lin e x y y_mask) y h := by
  intro lin h e x y ym
  induction x generalizing y ym with
  | nil => simp [SeqAttnMatch.forward, SeqAttnMatch.alpha, bmm3]
  | cons xb xt ih =>
    cases y with
    | nil => simp [SeqAttnMatch.forward, SeqAttnMatch.alpha, bmm3]
    | cons yb yt =>
      cases ym with
      | nil => simp [SeqAttnMatch.forward, SeqAttnMatch.alpha, bmm3]
      | cons mb mt =>
        have htail := ih yt mt
        simp only [SeqAttnMatch.forward, SeqAttnMatch.alpha, bmm3,
          List.zip_cons_cons, List.zipWith_cons_cons, List.map_map] at htail ⊢
        exact List.cons_eq_cons.mpr ⟨rfl, htail⟩

/-! ### Claim C1 -/

theorem zipWith_getD {α β γ : Type} (f : α → β → γ) (l1 : List α) (l2 : List β)
    (i : ℕ) (d1 : α) (d2 : β) (d3 : γ) (h1 : i < l1.length) (h2 : i < l2.length) :
    (List.zipWith f l1 l2).getD i d3 = f (l1.getD i d1) (l2.getD i d2) := by
  rw [List.getD_eq_getElem _ d1 h1, List.getD_eq_getElem _ d2 h2,
    List.getD_eq_getElem _ d3 (by rw [List.length_zipWith]; omega), List.getElem_zipWith]

theorem map_getD {α β : Type} (f : α → β) (l : List α) (i : ℕ) (d1 : α) (d2 : β)
    (h : i < l.length) : (l.map f).getD i d2 = f (l.getD i d1) := by
  rw [List.getD_eq_getElem _ d1 h,
    List.getD_eq_getElem _ d2 (by rw [List.length_map]; omega), List.getElem_map]

theorem zip_getD {α β : Type} (l1 : List α) (l2 : List β) (i : ℕ) (d1 : α) (d2 : β)
    (h1 : i < l1.length) (h2 : i < l2.length) :
    (l1.zip l2).getD i (d1, d2) = (l1.getD i d1, l2.getD i d2) := by
  rw [List.getD_eq_getElem _ (d1, d2) (by rw [List.length_zip]; omega),
    List.getElem_zip, List.getD_eq_getElem _ d1 h1, List.getD_eq_getElem _ d2 h2]

theorem projRelu_length (lin : Option LinParams) (s : List V) :
    (projRelu lin s).length = s.length := by
  cases lin <;> simp [projRelu]

/-- Claim C1: for every input and boolean mask (true = padding) in which
every row keeps at least one unmasked position, the attention
distributions of `LinearSeqAttn.forward`, `SeqAttnMatch` (each row of its
normalized weights along `len2`), and `BilinearSeqAttn` (the exponential
of its returned log-softmax) put exactly `0` mass on every masked position
and total mass `1` on the unmasked positions. -/
theorem attention_distributions_masked_mass :
    (∀ (w : V) (b : ℚ) (e : ℚ → ℚ) (x : List (List V)) (x_mask : List (List Bool)),
      (∀ q, 0 < e q) →
      x.length = x_mask.length →
      (∀ i, i < x.length → (x.getD i []).length = (x_mask.getD i []).length) →
      (∀ i, i < x.length → false ∈ x_mask.getD i []) →
      ∀ i, i < x.length →
        (∀ j, j < (x_mask.getD i []).length → (x_mask.getD i []).getD j true = true →
          ((LinearSeqAttn.forward w b e x x_mask).getD i []).getD j none = some 0) ∧
        unmaskedMass (x_mask.getD i []) ((LinearSeqAttn.forward w b e x x_mask).getD i []) = 1) ∧
    (∀ (lin : Option LinParams) (e : ℚ → ℚ) (x y : List (List V))
        (y_mask : List (List Bool)),
      (∀ q, 0 < e q) →
      y.length = x.length → y_mask.length = x.length →
      (∀ i, i < x.length → (y.getD i []).length = (y_mask.getD i []).length) →
      (∀ i, i < x.length → false ∈ y_mask.getD i []) →
      ∀ i, i < x.length →
        ∀ r, r < (((SeqAttnMatch.alpha lin e x y y_mask).getD i []).length) →
          (∀ j, j < (y_mask.getD i []).length → (y_mask.getD i []).getD j true = true →
            (((SeqAttnMatch.alpha lin e x y y_mask).getD i []).getD r []).getD j none = some 0) ∧
          unmaskedMass (y_mask.getD i [])
            (((SeqAttnMatch.alpha lin e x y y_mask).getD i []).getD r []) = 1) ∧
    (∀ (lin : Option LinParams) (e : ℚ → ℚ) (x : List (List V)) (y : List V)
        (x_mask : List (List Bool)),
      (∀ q, 0 < e q) →
      y.length = x.length → x_mask.length = x.length →
      (∀ i, i < x.length → (x.getD i []).length = (x_mask.getD i []).length) →
      (∀ i, i < x.length → false ∈ x_mask.getD i []) →
      ∀ i, i < x.length →
        (∀ j, j < (x_mask.getD i []).length → (x_mask.getD i []).getD j true = true →
          ((BilinearSeqAttn.forwardExp lin e x y x_mask).getD i []).getD j none = some 0) ∧
        unmaskedMass (x_mask.getD i []) ((BilinearSeqAttn.forwardExp lin e x y x_mask).getD i []) = 1) := by
  refine ⟨?_, ?_, ?_⟩
  · intro w b e x x_mask he hlen hrowlen hum i hi
    have hrow : (LinearSeqAttn.forward w b e x x_mask).getD i [] =
        softmaxRow e (maskRow ((x.getD i []).map (fun xi => dot w xi + b))
          (x_mask.getD i [])) := by
      unfold LinearSeqAttn.forward
      exact zipWith_getD _ x x_mask i [] [] [] hi (by omega)
    have hsl : ((x.getD i []).map (fun xi => dot w xi + b)).length =
        (x_mask.getD i []).length := by
      rw [List.length_map]
      exact hrowlen i hi
    obtain ⟨_, hmask, hmass⟩ :=
      maskedSoftmax_spec e he ((x.getD i []).map (fun xi => dot w xi + b))
        (x_mask.getD i []) hsl (hum i hi)
    rw [hrow]
    exact ⟨hmask, hmass⟩
  · intro lin e x y y_mask he hly hlm hrowlen hum i hi
    have hzl : i < (y.zip y_mask).length := by
      rw [List.length_zip]
      omega
    have hrow : (SeqAttnMatch.alpha lin e x y y_mask).getD i [] =
        (projRelu lin (x.getD i [])).map (fun xi =>
          softmaxRow e (List.zipWith (fun yj mj => if mj then none else some (dot xi yj))
            (projRelu lin (y.getD i [])) (y_mask.getD i []))) := by
      unfold SeqAttnMatch.alpha
      rw [zipWith_getD _ x (y.zip y_mask) i [] ([], []) [] hi hzl,
        zip_getD y y_mask i [] [] (by omega) (by omega)]
    intro r hr
    rw [hrow] at hr ⊢
    rw [List.length_map] at hr
    have hrone : ((projRelu lin (x.getD i [])).map (fun xi =>
        softmaxRow e (List.zipWith (fun yj mj => if mj then none else some (dot xi yj))
          (projRelu lin (y.getD i [])) (y_mask.getD i [])))).getD r [] =
        softmaxRow e (List.zipWith (fun yj mj => if mj then none else some
          (dot ((projRelu lin (x.getD i [])).getD r []) yj))
          (projRelu lin (y.getD i [])) (y_mask.getD i [])) :=
      map_getD _ _ r [] [] hr
    have hmr : List.zipWith (fun yj mj => if mj then none else some
          (dot ((projRelu lin (x.getD i [])).getD r []) yj))
          (projRelu lin (y.getD i [])) (y_mask.getD i []) =
        maskRow ((projRelu lin (y.getD i [])).map
          (fun yj => dot ((projRelu lin (x.getD i [])).getD r []) yj))
          (y_mask.getD i []) := by
      unfold maskRow
      rw [List.zipWith_map_left]
    have hsl : ((projRelu lin (y.getD i [])).map
        (fun yj => dot ((projRelu lin (x.getD i [])).getD r []) yj)).length =
        (y_mask.getD i []).length := by
      rw [List.length_map, projRelu_length]
      exact hrowlen i hi
    obtain ⟨_, hmask, hmass⟩ :=
      maskedSoftmax_spec e he _ (y_mask.getD i []) hsl (hum i hi)
    rw [hrone, hmr]
    exact ⟨hmask, hmass⟩
  · intro lin e x y x_mask he hly hlm hrowlen hum i hi
    have hzl : i < (y.zip x_mask).length := by
      rw [List.length_zip]
      omega
    cases lin with
    | none =>
      have hrow : (BilinearSeqAttn.forwardExp none e x y x_mask).getD i [] =
          softmaxRow e (maskRow ((x.getD i []).map (fun xi => dot xi (y.getD i [])))
            (x_mask.getD i [])) := by
        unfold BilinearSeqAttn.forwardExp
        rw [zipWith_getD _ x (y.zip x_mask) i [] ([], []) [] hi hzl,
          zip_getD y x_mask i [] [] (by omega) (by omega)]
      have hsl : ((x.getD i []).map (fun xi => dot xi (y.getD i []))).length =
          (x_mask.getD i []).length := by
        rw [List.length_map]
        exact hrowlen i hi
      obtain ⟨_, hmask, hmass⟩ :=
        maskedSoftmax_spec e he _ (x_mask.getD i []) hsl (hum i hi)
      rw [hrow]
      exact ⟨hmask, hmass⟩
    | some p =>
      have hrow : (BilinearSeqAttn.forwardExp (some p) e x y x_mask).getD i [] =
          softmaxRow e (maskRow ((x.getD i []).map (fun xi => dot xi
            (linApp p (y.getD i [])))) (x_mask.getD i [])) := by
        unfold BilinearSeqAttn.forwardExp
        rw [zipWith_getD _ x (y.zip x_mask) i [] ([], []) [] hi hzl,
          zip_getD y x_mask i [] [] (by omega) (by omega)]
      have hsl : ((x.getD i []).map (fun xi => dot xi (linApp p (y.getD i [])))).length =
          (x_mask.getD i []).length := by
        rw [List.length_map]
        exact hrowlen i hi
      obtain ⟨_, hmask, hmass⟩ :=
        maskedSoftmax_spec e he _ (x_mask.getD i []) hsl (hum i hi)
      rw [hrow]
      exact ⟨hmask, hmass⟩

/-- Witness for C1 at concrete inputs for all three layers. -/
theorem attention_distributions_masked_mass_w :
    ((LinearSeqAttn.forward [1] 0 (fun _ => 1) [[[1], [2]]] [[false, true]]).getD 0 []).getD 1 none = some 0 ∧
    unmaskedMass [false, true]
      ((LinearSeqAttn.forward [1] 0 (fun _ => 1) [[[1], [2]]] [[false, true]]).getD 0 []) = 1 ∧
    (((SeqAttnMatch.alpha none (fun _ => 1) [[[1]]] [[[5], [7]]] [[false, true]]).getD 0 []).getD 0 []).getD 1 none = some 0 ∧
    unmaskedMass [false, true]
      (((SeqAttnMatch.alpha none (fun _ => 1) [[[1]]] [[[5], [7]]] [[false, true]]).getD 0 []).getD 0 []) = 1 ∧
    ((BilinearSeqAttn.forwardExp none (fun _ => 1) [[[1], [2]]] [[3]] [[false, true]]).getD 0 []).getD 1 none = some 0 ∧
    unmaskedMass [false, true]
      ((BilinearSeqAttn.forwardExp none (fun _ => 1) [[[1], [2]]] [[3]] [[false, true]]).getD 0 []) = 1 := by
  have he : ∀ q : ℚ, 0 < (fun _ : ℚ => (1 : ℚ)) q := fun _ => one_pos
  refine ⟨?_, ?_, ?_, ?_, ?_, ?_⟩
  · exact (attention_distributions_masked_mass.1 [1] 0 (fun _ => 1) [[[1], [2]]]
      [[false, true]] he rfl (by decide) (by decide) 0 (by decide)).1 1 (by decide) (by decide)
  · exact (attention_distributions_masked_mass.1 [1] 0 (fun _ => 1) [[[1], [2]]]
      [[false, true]] he rfl (by decide) (by decide) 0 (by decide)).2
  · exact (attention_distributions_masked_mass.2.1 none (fun _ => 1) [[[1]]] [[[5], [7]]]
      [[false, true]] he rfl rfl (by decide) (by decide) 0 (by decide) 0 (by decide)).1
      1 (by decide) (by decide)
  · exact (attention_distributions_masked_mass.2.1 none (fun _ => 1) [[[1]]] [[[5], [7]]]
      [[false, true]] he rfl rfl (by decide) (by decide) 0 (by decide) 0 (by decide)).2
  · exact (attention_distributions_masked_mass.2.2 none (fun _ => 1) [[[1], [2]]] [[3]]
      [[false, true]] he rfl rfl (by decide) (by decide) 0 (by decide)).1 1 (by decide) (by decide)
  · exact (attention_distributions_masked_mass.2.2 none (fun _ => 1) [[[1], [2]]] [[3]]
      [[false, true]] he rfl rfl (by decide) (by decide) 0 (by decide)).2

/-! ### Claim C2 -/

theorem mapIdx_length {α β : Type} (f : ℕ → α → β) (l : List α) :
    (mapIdx f l).length = l.length := by
  simp [mapIdx, List.length_zipWith]

theorem mapIdx_getD {α β : Type} (f : ℕ → α → β) (l : List α) (j : ℕ)
    (d1 : α) (d2 : β) (hj : j < l.length) :
    (mapIdx f l).getD j d2 = f j (l.getD j d1) := by
  rw [List.getD_eq_getElem _ d1 hj,
    List.getD_eq_getElem _ d2 (by rw [mapIdx_length]; omega)]
  simp [mapIdx, List.getElem_zipWith, List.getElem_range]

theorem softmaxRow_length (e : ℚ → ℚ) (row : List (Option ℚ)) :
    (softmaxRow e row).length = row.length := by
  unfold softmaxRow
  by_cases hd : (row.map (expE e)).sum = 0 <;> simp [hd]

theorem sum_eq_zero_of_all_zero {l : List ℚ} (h : ∀ a ∈ l, a = 0) : l.sum = 0 := by
  induction l with
  | nil => rfl
  | cons b t ih =>
    have hb := h b (List.mem_cons_self _ _)
    have ht := ih (fun a ha => h a (List.mem_cons_of_mem _ ha))
    simp [hb, ht]

/-- Claim C2: for a nonempty history `x` of `n` turn vectors,
`SentenceHistoryAttn.forward` (with the current timestep excluded, the only
constructible configuration) returns an `n × n` matrix whose row `0` is
exactly zeros (not NaN), and whose every other row `i` is exactly `0` at
columns `i … n-1` and sums to `1` over columns `0 … i-1` — with or without
the recency bias (`recency` ranges over both), since the recency term is
zeroed at masked entries before being added. -/
theorem sentenceHistoryAttn_rows :
    ∀ (lin : LinParams) (recency : Option ℚ) (e : ℚ → ℚ) (x : List V),
      (∀ q, 0 < e q) → x ≠ [] →
      ∃ m, SentenceHistoryAttn.forward lin recency e x = Except.ok m ∧
        m.length = x.length ∧
        (∀ i, i < x.length → (m.getD i []).length = x.length) ∧
        (∀ j, j < x.length → (m.getD 0 []).getD j none = some 0) ∧
        (∀ i, 0 < i → i < x.length →
          (∀ j, i ≤ j → j < x.length → (m.getD i []).getD j none = some 0) ∧
          (((m.getD i []).take i).map (fun o => o.getD 0)).sum = 1) := by
  intro lin recency e x he hx
  have hn : 0 < x.length := List.length_pos.mpr hx
  set xp := x.map (fun v => reluV (linApp lin v)) with hxp
  have hxpl : xp.length = x.length := by rw [hxp, List.length_map]
  set rows := mapIdx (fun i vi =>
    softmaxRow e (mapIdx (fun j vj =>
      if i ≤ j then none
      else some (dot vi vj + recencyTerm recency i j)) xp)) xp with hrows
  have hrl : rows.length = x.length := by rw [hrows, mapIdx_length, hxpl]
  cases hr : rows with
  | nil =>
    rw [hr] at hrl
    simp at hrl
    omega
  | cons r0 rest =>
    have hfwd : SentenceHistoryAttn.forward lin recency e x =
        Except.ok (List.replicate x.length (some (0 : ℚ)) :: rest) := by
      unfold SentenceHistoryAttn.forward
      dsimp only
      rw [← hrows, hr]
    -- a name for row i's pre-softmax input
    have hrowsi : ∀ i, i < x.length → rows.getD i [] =
        softmaxRow e (mapIdx (fun j vj =>
          if i ≤ j then none
          else some (dot (xp.getD i []) vj + recencyTerm recency i j)) xp) := by
      intro i hi
      rw [hrows]
      exact mapIdx_getD _ xp i [] [] (by omega)
    refine ⟨List.replicate x.length (some (0 : ℚ)) :: rest, hfwd, ?_, ?_, ?_, ?_⟩
    · have : rest.length = x.length - 1 := by
        have := hrl
        rw [hr] at this
        simp at this
        omega
      simp [this]
      omega
    · intro i hi
      cases i with
      | zero => simp [List.length_replicate]
      | succ k =>
        have hgd : (List.replicate x.length (some (0 : ℚ)) :: rest).getD (k + 1) [] =
            rows.getD (k + 1) [] := by
          rw [hr]
          rfl
        rw [hgd, hrowsi (k + 1) hi, softmaxRow_length, mapIdx_length, hxpl]
    · intro j hj
      have : (List.replicate x.length (some (0 : ℚ)) :: rest).getD 0 [] =
          List.replicate x.length (some (0 : ℚ)) := rfl
      rw [this, List.getD_eq_getElem _ none (by simpa using hj), List.getElem_replicate]
    · intro i hi0 hi
      have hgd : (List.replicate x.length (some (0 : ℚ)) :: rest).getD i [] =
          rows.getD i [] := by
        cases i with
        | zero => omega
        | succ k =>
          rw [hr]
          rfl
      rw [hgd, hrowsi i hi]
      set RI := mapIdx (fun j vj =>
        if i ≤ j then none
        else some (dot (xp.getD i []) vj + recencyTerm recency i j)) xp with hRI
      have hRIl : RI.length = x.length := by rw [hRI, mapIdx_length, hxpl]
      have hRIj : ∀ j, j < x.length → RI.getD j none =
          if i ≤ j then none
          else some (dot (xp.getD i []) (xp.getD j []) + recencyTerm recency i j) := by
        intro j hj
        rw [hRI]
        exact mapIdx_getD _ xp j [] none (by omega)
      have hs0 : (RI.getD 0 none).isSome := by
        rw [hRIj 0 hn, if_neg (by omega)]
        rfl
      have hden : 0 < (RI.map (expE e)).sum :=
        softmaxDen_pos e he RI 0 (by omega) hs0
      have hden' : (RI.map (expE e)).sum ≠ 0 := ne_of_gt hden
      have hout := softmaxRow_eq_map e RI hden'
      constructor
      · intro j hij hj
        rw [hout, map_getD _ RI j none none (by omega), hRIj j hj, if_pos hij]
        simp [expE]
      · rw [hout, ← List.map_take]
        have hm1 : ((RI.take i).map (fun s => some (expE e s / (RI.map (expE e)).sum))).map
            (fun o => o.getD 0) = (RI.take i).map (fun s => expE e s * ((RI.map (expE e)).sum)⁻¹) := by
          rw [List.map_map]
          apply List.map_congr_left
          intro s _
          simp [Function.comp, div_eq_mul_inv]
        rw [hm1, List.sum_map_mul_right]
        have hsplit : (RI.map (expE e)).sum =
            ((RI.take i).map (expE e)).sum + ((RI.drop i).map (expE e)).sum := by
          conv_lhs => rw [← List.take_append_drop i RI]
          rw [List.map_append, List.sum_append]
        have hdrop : ((RI.drop i).map (expE e)).sum = 0 := by
          apply sum_eq_zero_of_all_zero
          intro a ha
          obtain ⟨s, hs, rfl⟩ := List.mem_map.mp ha
          obtain ⟨k, hk, hks⟩ := List.mem_iff_getElem.mp hs
          have hikr : i + k < RI.length := by
            have := List.length_drop i RI
            rw [hRIl] at this
            rw [hRIl]
            have := hk
            rw [List.length_drop, hRIl] at this
            omega
          have hkd : RI[i + k] = s := by
            rw [← hks, List.getElem_drop]
          have hnone : s = none := by
            have hikx : i + k < x.length := by
              have := hk
              rw [List.length_drop, hRIl] at this
              omega
            have := hRIj (i + k) hikx
            rw [List.getD_eq_getElem _ none (by omega), hkd, if_pos (by omega)] at this
            exact this
          rw [hnone]
          rfl
        rw [hdrop, add_zero] at hsplit
        rw [← hsplit, mul_inv_cancel₀ hden']

/-- Witness for C2 at a concrete two-turn history with recency bias on. -/
theorem sentenceHistoryAttn_rows_w :
    ∃ m, SentenceHistoryAttn.forward ⟨[[1]], [0]⟩ (some (-(1/10))) (fun _ => 1)
        [[1], [2]] = Except.ok m ∧
      m.length = ([[1], [2]] : List V).length ∧
      (∀ i, i < ([[1], [2]] : List V).length →
        (m.getD i []).length = ([[1], [2]] : List V).length) ∧
      (∀ j, j < ([[1], [2]] : List V).length → (m.getD 0 []).getD j none = some 0) ∧
      (∀ i, 0 < i → i < ([[1], [2]] : List V).length →
        (∀ j, i ≤ j → j < ([[1], [2]] : List V).length →
          (m.getD i []).getD j none = some 0) ∧
        (((m.getD i []).take i).map (fun o => o.getD 0)).sum = 1) :=
  sentenceHistoryAttn_rows ⟨[[1]], [0]⟩ (some (-(1/10))) (fun _ => 1) [[1], [2]]
    (fun _ => one_pos) (by decide)

/-! ### Claims C7 and C10 -/

theorem selMass_all_true (e : ℚ → ℚ) :
    ∀ (row : List ℚ) (m : List Bool), row.length = m.length →
      (∀ b ∈ m, b = true) → selMass e row m = (row.map e).sum := by
  intro row
  induction row with
  | nil =>
    intro m hlen _
    cases m with
    | nil => rfl
    | cons b t => simp at hlen
  | cons q rt ih =>
    intro m hlen hall
    cases m with
    | nil => simp at hlen
    | cons b t =>
      have hb : b = true := hall b (List.mem_cons_self _ _)
      have ht := ih t (by simpa using hlen) (fun c hc => hall c (List.mem_cons_of_mem _ hc))
      simp [selMass, hb] at ht ⊢
      exact ht

theorem selMass_all_false (e : ℚ → ℚ) :
    ∀ (row : List ℚ) (m : List Bool), (∀ b ∈ m, b = false) →
      selMass e row m = 0 := by
  intro row
  induction row with
  | nil => intro m _; simp [selMass]
  | cons q rt ih =>
    intro m hall
    cases m with
    | nil => simp [selMass]
    | cons b t =>
      have hb : b = false := hall b (List.mem_cons_self _ _)
      have ht := ih t (fun c hc => hall c (List.mem_cons_of_mem _ hc))
      simp [selMass, hb] at ht ⊢
      exact ht

theorem selMass_single (e : ℚ → ℚ) :
    ∀ (row : List ℚ) (m : List Bool) (j : ℕ), row.length = m.length →
      j < m.length → m.getD j false = true →
      (∀ k, k < m.length → k ≠ j → m.getD k true = false) →
      selMass e row m = e (row.getD j 0) := by
  intro row
  induction row with
  | nil =>
    intro m j hlen hj _ _
    cases m with
    | nil => simp at hj
    | cons b t => simp at hlen
  | cons q rt ih =>
    intro m j hlen hj hsel hrest
    cases m with
    | nil => simp at hlen
    | cons b t =>
      cases j with
      | zero =>
        have hb : b = true := by simpa using hsel
        have htall : ∀ c ∈ t, c = false := by
          intro c hc
          obtain ⟨k, hk, hkc⟩ := List.mem_iff_getElem.mp hc
          have := hrest (k + 1) (by simp; omega) (by omega)
          rw [List.getD_cons_succ, List.getD_eq_getElem _ true hk, hkc] at this
          exact this
        have ht := selMass_all_false e rt t htall
        simp [selMass, hb] at ht ⊢
        exact ht
      | succ k =>
        have hb : b = false := by
          have := hrest 0 (by simp) (by omega)
          simpa using this
        have ht := ih t k (by simpa using hlen) (by simpa using hj)
          (by simpa using hsel)
          (by
            intro k2 hk2 hk2j
            have := hrest (k2 + 1) (by simp; omega) (by omega)
            simpa using this)
        simp [selMass, hb] at ht ⊢
        exact ht

theorem rowDen_pos (e : ℚ → ℚ) (he : ∀ q, 0 < e q) (row : List ℚ) (hne : row ≠ []) :
    0 < (row.map e).sum := by
  apply List.sum_pos
  · intro a ha
    obtain ⟨q, _, rfl⟩ := List.mem_map.mp ha
    exact he q
  · simpa using hne

theorem rowLoss_fin (e l : ℚ → ℚ) (he : ∀ q, 0 < e q) (row : List ℚ) (m : List Bool)
    (hlen : row.length = m.length) (hne : row ≠ [])
    (hsel : ∃ j, j < m.length ∧ m.getD j false = true) :
    rowLoss e l row m = LossVal.fin (-(l (selMass e row m / (row.map e).sum))) := by
  obtain ⟨j, hj, hmj⟩ := hsel
  have hden := rowDen_pos e he row hne
  have hnum : 0 < selMass e row m := by
    have hjz : j < (List.zipWith (fun q b => if b then e q else 0) row m).length := by
      rw [List.length_zipWith]
      omega
    have hjrow : j < row.length := by omega
    have helem : (List.zipWith (fun q b => if b then e q else 0) row m)[j] =
        e row[j] := by
      rw [List.getElem_zipWith]
      rw [List.getD_eq_getElem _ false (by omega)] at hmj
      simp [hmj]
    refine listSum_pos_of_mem ?_ (helem ▸ List.getElem_mem hjz) (he _)
    intro a ha
    obtain ⟨n, hn, hna⟩ := List.mem_iff_getElem.mp ha
    rw [List.getElem_zipWith] at hna
    have hn2 : n < m.length := by
      rw [List.length_zipWith] at hn
      omega
    by_cases hmn : m[n]
    · rw [← hna, if_pos hmn]
      exact le_of_lt (he _)
    · rw [← hna, if_neg hmn]
  unfold rowLoss
  dsimp only
  rw [if_neg (ne_of_gt hden), if_neg (ne_of_gt hnum)]

theorem rowLoss_inf (e l : ℚ → ℚ) (he : ∀ q, 0 < e q) (row : List ℚ) (m : List Bool)
    (hne : row ≠ []) (hall : ∀ b ∈ m, b = false) :
    rowLoss e l row m = LossVal.inf := by
  have hden := rowDen_pos e he row hne
  have hnum := selMass_all_false e row m hall
  unfold rowLoss
  dsimp only
  rw [if_neg (ne_of_gt hden), if_pos hnum]

theorem rowLoss_ne_nan (e l : ℚ → ℚ) (he : ∀ q, 0 < e q) (row : List ℚ) (m : List Bool)
    (hne : row ≠ []) : rowLoss e l row m ≠ LossVal.nan := by
  have hden := rowDen_pos e he row hne
  unfold rowLoss
  dsimp only
  rw [if_neg (ne_of_gt hden)]
  by_cases hnum : selMass e row m = 0
  · rw [if_pos hnum]
    exact fun h => LossVal.noConfusion h
  · rw [if_neg hnum]
    exact fun h => LossVal.noConfusion h

theorem foldl_add_fins (qs : List ℚ) :
    ∀ (c : ℚ), (qs.map LossVal.fin).foldl LossVal.add (LossVal.fin c) =
      LossVal.fin (c + qs.sum) := by
  induction qs with
  | nil => intro c; simp
  | cons q t ih =>
    intro c
    have : LossVal.add (LossVal.fin c) (LossVal.fin q) = LossVal.fin (c + q) := rfl
    simp only [List.map_cons, List.foldl_cons, this, ih, List.sum_cons]
    ring_nf

theorem foldl_add_inf_acc (lv : List LossVal) (hnn : ∀ v ∈ lv, v ≠ LossVal.nan) :
    lv.foldl LossVal.add LossVal.inf = LossVal.inf := by
  induction lv with
  | nil => rfl
  | cons v t ih =>
    have hv := hnn v (List.mem_cons_self _ _)
    have hadd : LossVal.add LossVal.inf v = LossVal.inf := by
      cases v with
      | nan => exact absurd rfl hv
      | inf => rfl
      | fin q => rfl
    simp only [List.foldl_cons, hadd]
    exact ih (fun w hw => hnn w (List.mem_cons_of_mem _ hw))

theorem foldl_add_inf_mem (lv : List LossVal) (hnn : ∀ v ∈ lv, v ≠ LossVal.nan)
    (hinf : LossVal.inf ∈ lv) :
    ∀ (c : ℚ), lv.foldl LossVal.add (LossVal.fin c) = LossVal.inf := by
  induction lv with
  | nil => cases hinf
  | cons v t ih =>
    intro c
    cases v with
    | nan => exact absurd rfl (hnn _ (List.mem_cons_self _ _))
    | inf =>
      have : LossVal.add (LossVal.fin c) LossVal.inf = LossVal.inf := rfl
      simp only [List.foldl_cons, this]
      exact foldl_add_inf_acc t (fun w hw => hnn w (List.mem_cons_of_mem _ hw))
    | fin q =>
      have hti : LossVal.inf ∈ t := by
        rcases List.mem_cons.mp hinf with hv | ht
        · exact absurd hv.symm (fun h => LossVal.noConfusion h)
        · exact ht
      have : LossVal.add (LossVal.fin c) (LossVal.fin q) = LossVal.fin (c + q) := rfl
      simp only [List.foldl_cons, this]
      exact ih (fun w hw => hnn w (List.mem_cons_of_mem _ hw)) hti (c + q)

theorem foldl_add_all_zero (lv : List LossVal) (h : ∀ v ∈ lv, v = LossVal.fin 0) :
    lv.foldl LossVal.add (LossVal.fin 0) = LossVal.fin 0 := by
  induction lv with
  | nil => rfl
  | cons v t ih =>
    have hv := h v (List.mem_cons_self _ _)
    simp only [List.foldl_cons, hv]
    have : LossVal.add (LossVal.fin 0) (LossVal.fin 0) = LossVal.fin 0 := by
      show LossVal.fin (0 + 0) = LossVal.fin 0
      norm_num
    rw [this]
    exact ih (fun w hw => h w (List.mem_cons_of_mem _ hw))

/-- Claim C7 counterexample: on the legal scores tensor of shape 1×0
(`[[]]`), whose (empty) row has every position selected vacuously, the loss
is NaN (`log (0/0)`), not 0 — so the claim's universal quantification over
all score tensors fails at rows of zero length. -/
theorem multi_nll_loss_empty_row_not_zero_cex :
    multi_nll_loss (fun _ => 1) (fun q => q - 1) [[]] [[]] = LossVal.nan ∧
    LossVal.nan ≠ LossVal.fin 0 := by
  exact ⟨rfl, by decide⟩

/-- Claim C7 (amended): with the exponential positive and `log 1 = 0`,
`multi_nll_loss` equals the sum over batch rows of
`-log (selected mass / row mass)` whenever every row is nonempty with a
nonempty target set; in particular it is `0` when the target mask selects
every position of every (nonempty) row, and a row whose mask selects the
single position `j` contributes `-log (exp scoreⱼ / row mass)`. -/
theorem multi_nll_loss_spec :
    ∀ (e l : ℚ → ℚ), (∀ q, 0 < e q) → l 1 = 0 →
      (∀ (scores : List (List ℚ)) (target_mask : List (List Bool)),
        scores.length = target_mask.length →
        (∀ i, i < scores.length → (scores.getD i []).length = (target_mask.getD i []).length) →
        (∀ i, i < scores.length → scores.getD i [] ≠ []) →
        (∀ i, i < scores.length → ∃ j, j < (target_mask.getD i []).length ∧
          (target_mask.getD i []).getD j false = true) →
        multi_nll_loss e l scores target_mask =
          LossVal.fin ((List.zipWith (fun row m =>
            -(l (selMass e row m / (row.map e).sum))) scores target_mask).sum)) ∧
      (∀ (scores : List (List ℚ)) (target_mask : List (List Bool)),
        scores.length = target_mask.length →
        (∀ i, i < scores.length → (scores.getD i []).length = (target_mask.getD i []).length) →
        (∀ i, i < scores.length → scores.getD i [] ≠ []) →
        (∀ i, i < scores.length → ∀ b ∈ target_mask.getD i [], b = true) →
        multi_nll_loss e l scores target_mask = LossVal.fin 0) ∧
      (∀ (row : List ℚ) (m : List Bool) (j : ℕ),
        row.length = m.length → row ≠ [] →
        j < m.length → m.getD j false = true →
        (∀ k, k < m.length → k ≠ j → m.getD k true = false) →
        rowLoss e l row m = LossVal.fin (-(l (e (row.getD j 0) / (row.map e).sum)))) := by
  intro e l he hl1
  refine ⟨?_, ?_, ?_⟩
  · intro scores target_mask hlen hrlen hne hsel
    unfold multi_nll_loss
    have hzw : List.zipWith (rowLoss e l) scores target_mask =
        (List.zipWith (fun row m => -(l (selMass e row m / (row.map e).sum)))
          scores target_mask).map LossVal.fin := by
      apply List.ext_getElem
      · simp [List.length_zipWith]
      · intro i h1 h2
        have hi : i < scores.length := by
          rw [List.length_zipWith] at h1
          omega
        rw [List.getElem_map, List.getElem_zipWith, List.getElem_zipWith]
        have him : i < target_mask.length := by omega
        have hgd1 : scores[i] = scores.getD i [] :=
          (List.getD_eq_getElem scores [] (by omega)).symm
        have hgd2 : target_mask[i] = target_mask.getD i [] :=
          (List.getD_eq_getElem target_mask [] (by omega)).symm
        rw [hgd1, hgd2]
        exact rowLoss_fin e l he _ _ (hrlen i hi) (hne i hi) (hsel i hi)
    rw [hzw, foldl_add_fins, zero_add]
  · intro scores target_mask hlen hrlen hne hall
    unfold multi_nll_loss
    apply foldl_add_all_zero
    intro v hv
    obtain ⟨i, hi, hiv⟩ := List.mem_iff_getElem.mp hv
    have hi2 : i < scores.length := by
      rw [List.length_zipWith] at hi
      omega
    have him : i < target_mask.length := by omega
    rw [List.getElem_zipWith] at hiv
    have hgd1 : scores[i] = scores.getD i [] :=
      (List.getD_eq_getElem scores [] (by omega)).symm
    have hgd2 : target_mask[i] = target_mask.getD i [] :=
      (List.getD_eq_getElem target_mask [] (by omega)).symm
    rw [hgd1, hgd2] at hiv
    have hmne : (target_mask.getD i []).length ≠ 0 := by
      have := hrlen i hi2
      have hne2 := hne i hi2
      intro h0
      apply hne2
      have : (scores.getD i []).length = 0 := by omega
      exact List.length_eq_zero.mp this
    have hsel : ∃ j, j < (target_mask.getD i []).length ∧
        (target_mask.getD i []).getD j false = true := by
      refine ⟨0, by omega, ?_⟩
      have h0 : 0 < (target_mask.getD i []).length := by omega
      rw [List.getD_eq_getElem _ false h0]
      exact hall i hi2 _ (List.getElem_mem h0)
    rw [← hiv, rowLoss_fin e l he _ _ (hrlen i hi2) (hne i hi2) hsel,
      selMass_all_true e _ _ (hrlen i hi2) (hall i hi2),
      div_self (ne_of_gt (rowDen_pos e he _ (hne i hi2))), hl1]
    norm_num
  · intro row m j hlen hne hj hjt hrest
    rw [rowLoss_fin e l he row m hlen hne ⟨j, hj, hjt⟩,
      selMass_single e row m j hlen hj hjt hrest]

/-- Witness for C7: an all-selected mask gives loss `0`, and a
single-position mask contributes that position's share. -/
theorem multi_nll_loss_spec_w :
    multi_nll_loss (fun _ => 1) (fun q => q - 1) [[1, 2], [3]] [[true, true], [true]] =
      LossVal.fin 0 ∧
    rowLoss (fun _ => 1) (fun q => q - 1) [5, 6] [false, true] = LossVal.fin (1 / 2) := by
  constructor
  · exact (multi_nll_loss_spec (fun _ => 1) (fun q => q - 1) (fun _ => one_pos)
      (by norm_num)).2.1 [[1, 2], [3]] [[true, true], [true]] rfl (by decide)
      (by decide) (by decide)
  · have h := (multi_nll_loss_spec (fun _ => 1) (fun q => q - 1) (fun _ => one_pos)
      (by norm_num)).2.2 [5, 6] [false, true] 1 rfl (by decide) (by decide)
      (by decide) (by decide)
    refine h.trans ?_
    norm_num

/-- Claim C10 counterexample: a batch whose second row is empty (shape
2×[1,0] is not expressible, but a 2-row tensor with 0 columns in the
second list is the degenerate case `[[1], []]` / `[[true], []]` of the
embedding; in a rectangular 2×0 tensor both rows are empty): the second
row's target set is empty, yet the total loss is NaN (`-log (0/0)`), not
`+inf`. -/
theorem multi_nll_loss_empty_row_nan_cex :
    multi_nll_loss (fun _ => 1) (fun q => q - 1) [[1], []] [[true], []] = LossVal.nan ∧
    LossVal.nan ≠ LossVal.inf := by
  refine ⟨?_, by decide⟩
  norm_num [multi_nll_loss, rowLoss, selMass, LossVal.add]

/-- Claim C10 (amended): `multi_nll_loss` never raises; provided every row
has at least one position, a row whose target mask selects no positions
contributes `+inf` (`-log 0`), and the total loss is `+inf` as soon as one
such row exists. -/
theorem multi_nll_loss_empty_target_inf :
    ∀ (e l : ℚ → ℚ) (scores : List (List ℚ)) (target_mask : List (List Bool)),
      (∀ q, 0 < e q) →
      scores.length = target_mask.length →
      (∀ i, i < scores.length → scores.getD i [] ≠ []) →
      (∃ i, i < scores.length ∧ ∀ b ∈ target_mask.getD i [], b = false) →
      multi_nll_loss e l scores target_mask = LossVal.inf := by
  intro e l scores target_mask he hlen hne hex
  obtain ⟨i0, hi0, hall⟩ := hex
  unfold multi_nll_loss
  refine foldl_add_inf_mem _ ?_ ?_ 0
  · intro v hv
    obtain ⟨i, hi, hiv⟩ := List.mem_iff_getElem.mp hv
    have hi2 : i < scores.length := by
      rw [List.length_zipWith] at hi
      omega
    have him : i < target_mask.length := by
      rw [List.length_zipWith] at hi
      omega
    rw [List.getElem_zipWith] at hiv
    rw [← hiv]
    have hgd1 : scores[i] = scores.getD i [] :=
      (List.getD_eq_getElem scores [] (by omega)).symm
    rw [hgd1]
    exact rowLoss_ne_nan e l he _ _ (hne i hi2)
  · have hi0z : i0 < (List.zipWith (rowLoss e l) scores target_mask).length := by
      rw [List.length_zipWith]
      omega
    have hval : (List.zipWith (rowLoss e l) scores target_mask)[i0] =
        LossVal.inf := by
      have him : i0 < target_mask.length := by
        rw [List.length_zipWith] at hi0z
        omega
      rw [List.getElem_zipWith]
      have hgd1 : scores[i0] = scores.getD i0 [] :=
        (List.getD_eq_getElem scores [] (by omega)).symm
      have hgd2 : target_mask[i0] = target_mask.getD i0 [] :=
        (List.getD_eq_getElem target_mask [] (by omega)).symm
      rw [hgd1, hgd2]
      exact rowLoss_inf e l he _ _ (hne i0 hi0) hall
    exact hval ▸ List.getElem_mem hi0z

/-- Witness for C10 at a concrete batch whose second row selects nothing. -/
theorem multi_nll_loss_empty_target_inf_w :
    multi_nll_loss (fun _ => 1) (fun q => q - 1) [[1], [2]] [[true], [false]] =
      LossVal.inf :=
  multi_nll_loss_empty_target_inf (fun _ => 1) (fun q => q - 1) [[1], [2]]
    [[true], [false]] (fun _ => one_pos) rfl (by decide) ⟨1, by decide, by decide⟩

/-! ### Claims C3 and C5: sorting and permutation machinery -/

instance isTotalSndLe : IsTotal (ℕ × ℕ) (fun a b => a.2 ≤ b.2) :=
  ⟨fun a b => le_total a.2 b.2⟩

instance isTransSndLe : IsTrans (ℕ × ℕ) (fun a b => a.2 ≤ b.2) :=
  ⟨fun _ _ _ hab hbc => le_trans hab hbc⟩

theorem mapIdx_pairs_fst (l : List ℕ) :
    (mapIdx (fun i v => (i, v)) l).map Prod.fst = List.range l.length := by
  apply List.ext_getElem
  · simp [mapIdx, List.length_zipWith]
  · intro n h1 h2
    simp [mapIdx, List.getElem_zipWith, List.getElem_range]

theorem mapIdx_pairs_snd (l : List ℕ) :
    (mapIdx (fun i v => (i, v)) l).map Prod.snd = l := by
  apply List.ext_getElem
  · simp [mapIdx, List.length_zipWith]
  · intro n h1 h2
    simp [mapIdx, List.getElem_zipWith, List.getElem_range]

theorem argsortDesc_perm (l : List ℕ) :
    (argsortDesc l).Perm (List.range l.length) := by
  unfold argsortDesc
  have h1 := (List.perm_insertionSort (fun a b : ℕ × ℕ => b.2 ≤ a.2)
    (mapIdx (fun i v => (i, v)) l)).map Prod.fst
  rw [mapIdx_pairs_fst l] at h1
  exact h1

theorem argsortAsc_perm (l : List ℕ) :
    (argsortAsc l).Perm (List.range l.length) := by
  unfold argsortAsc
  have h1 := (List.perm_insertionSort (fun a b : ℕ × ℕ => a.2 ≤ b.2)
    (mapIdx (fun i v => (i, v)) l)).map Prod.fst
  rw [mapIdx_pairs_fst l] at h1
  exact h1

theorem argsortDesc_length (l : List ℕ) : (argsortDesc l).length = l.length := by
  rw [(argsortDesc_perm l).length_eq, List.length_range]

theorem argsortAsc_length (l : List ℕ) : (argsortAsc l).length = l.length := by
  rw [(argsortAsc_perm l).length_eq, List.length_range]

theorem argsortDesc_mem_lt (l : List ℕ) {i : ℕ} (hi : i ∈ argsortDesc l) :
    i < l.length := by
  have := ((argsortDesc_perm l).mem_iff).mp hi
  exact List.mem_range.mp this

theorem argsortAsc_mem_lt (l : List ℕ) {i : ℕ} (hi : i ∈ argsortAsc l) :
    i < l.length := by
  have := ((argsortAsc_perm l).mem_iff).mp hi
  exact List.mem_range.mp this

/-- Ascending argsort inverts any permutation of `range n`: sorting the
values of the sort permutation recovers the identity, entry by entry. -/
theorem argsort_asc_inverse (p : List ℕ) (hp : p.Perm (List.range p.length)) :
    ∀ b, b < p.length → p.getD ((argsortAsc p).getD b 0) 0 = b := by
  have hperm : (List.insertionSort (fun a b : ℕ × ℕ => a.2 ≤ b.2)
      (mapIdx (fun i v => (i, v)) p)).Perm (mapIdx (fun i v => (i, v)) p) :=
    List.perm_insertionSort _ _
  have hsortlen : (List.insertionSort (fun a b : ℕ × ℕ => a.2 ≤ b.2)
      (mapIdx (fun i v => (i, v)) p)).length = p.length := by
    rw [hperm.length_eq, mapIdx_length]
  have hq : argsortAsc p = (List.insertionSort (fun a b : ℕ × ℕ => a.2 ≤ b.2)
      (mapIdx (fun i v => (i, v)) p)).map Prod.fst := rfl
  have hpair_mem : ∀ pr ∈ mapIdx (fun i v => (i, v)) p,
      pr.1 < p.length ∧ pr.2 = p.getD pr.1 0 := by
    intro pr hpr
    obtain ⟨k, hk, hkpr⟩ := List.mem_iff_getElem.mp hpr
    have hklen : k < p.length := by
      rw [mapIdx_length] at hk
      exact hk
    have hpk : (mapIdx (fun i v => (i, v)) p)[k] = (k, p[k]) := by
      simp [mapIdx, List.getElem_zipWith, List.getElem_range]
    rw [hpk] at hkpr
    rw [← hkpr]
    exact ⟨hklen, (List.getD_eq_getElem p 0 hklen).symm⟩
  have hmapfst : ((List.insertionSort (fun a b : ℕ × ℕ => a.2 ≤ b.2)
      (mapIdx (fun i v => (i, v)) p)).map Prod.fst).map (fun i => p.getD i 0) =
      (List.insertionSort (fun a b : ℕ × ℕ => a.2 ≤ b.2)
        (mapIdx (fun i v => (i, v)) p)).map Prod.snd := by
    rw [List.map_map]
    apply List.map_congr_left
    intro pr hpr
    have h2 := (hpair_mem pr (hperm.mem_iff.mp hpr)).2
    simp only [Function.comp]
    exact h2.symm
  have hsort : List.Sorted (fun a b : ℕ × ℕ => a.2 ≤ b.2)
      (List.insertionSort (fun a b : ℕ × ℕ => a.2 ≤ b.2)
        (mapIdx (fun i v => (i, v)) p)) :=
    List.sorted_insertionSort _ _
  have hsndsorted : List.Sorted (fun a b : ℕ => a ≤ b)
      ((List.insertionSort (fun a b : ℕ × ℕ => a.2 ≤ b.2)
        (mapIdx (fun i v => (i, v)) p)).map Prod.snd) :=
    List.Pairwise.map _ (fun _ _ h => h) hsort
  have hsndperm : ((List.insertionSort (fun a b : ℕ × ℕ => a.2 ≤ b.2)
      (mapIdx (fun i v => (i, v)) p)).map Prod.snd).Perm (List.range p.length) := by
    have h1 := hperm.map Prod.snd
    rw [mapIdx_pairs_snd] at h1
    exact h1.trans hp
  have hrangesorted : List.Sorted (fun a b : ℕ => a ≤ b) (List.range p.length) :=
    (List.pairwise_lt_range p.length).imp (fun h => le_of_lt h)
  have heq : (List.insertionSort (fun a b : ℕ × ℕ => a.2 ≤ b.2)
      (mapIdx (fun i v => (i, v)) p)).map Prod.snd = List.range p.length :=
    List.eq_of_perm_of_sorted hsndperm hsndsorted hrangesorted
  intro b hb
  have hbq : b < ((List.insertionSort (fun a b : ℕ × ℕ => a.2 ≤ b.2)
      (mapIdx (fun i v => (i, v)) p)).map Prod.fst).length := by
    rw [List.length_map, hsortlen]
    omega
  have hfinal : (((List.insertionSort (fun a b : ℕ × ℕ => a.2 ≤ b.2)
      (mapIdx (fun i v => (i, v)) p)).map Prod.fst).map (fun i => p.getD i 0)).getD b 0 = b := by
    rw [hmapfst, heq, List.getD_eq_getElem _ 0 (by rw [List.length_range]; omega),
      List.getElem_range]
  rw [map_getD (fun i => p.getD i 0) _ b 0 0 hbq] at hfinal
  rw [hq]
  exact hfinal

/-- The composition `idx_sort ∘ idx_unsort` computed in `_forward_padded`
is the identity on batch indices. -/
theorem argsort_comp_id (L : List ℕ) :
    ∀ b, b < L.length →
      (argsortDesc L).getD ((argsortAsc (argsortDesc L)).getD b 0) 0 = b := by
  intro b hb
  have hp : (argsortDesc L).Perm (List.range (argsortDesc L).length) := by
    rw [argsortDesc_length]
    exact argsortDesc_perm L
  exact argsort_asc_inverse (argsortDesc L) hp b (by rw [argsortDesc_length]; omega)

/-- Identity of `dropout` at probability `0` (layers.py:320-321), used by
both `StackedBRNN` paths. -/
theorem dropout3_zero (x : List (List V)) (axes : List ℕ) (training : Bool)
    (bern : ℕ → ℕ → ℕ → ℚ) : dropout3 x 0 axes training bern = x := by
  unfold dropout3
  rw [if_pos (Or.inl rfl)]

/-- The unpadded layer loop stripped of its (identity) dropout calls. -/
def chainU : List Layer → List (List V) → List (List (List V))
  | [], _ => []
  | l :: rest, cur => (cur.map l.cell) :: chainU rest (cur.map l.cell)

theorem runLayersU_zero (variational training : Bool) (bern : ℕ → ℕ → ℕ → ℕ → ℚ) :
    ∀ (layers : List Layer) (idx : ℕ) (cur : List (List V)),
      runLayersU 0 variational training bern layers idx cur = chainU layers cur := by
  intro layers
  induction layers with
  | nil => intro idx cur; rfl
  | cons l rest ih =>
    intro idx cur
    simp only [runLayersU, chainU, dropout3_zero]
    rw [ih]

/-- The padded layer loop stripped of dropout and of the (never-failing,
once lengths are positive) pack check. -/
def chainP (sl : List ℕ) (maxLen : ℕ) : List Layer → List (List V) → List (List (List V))
  | [], _ => []
  | l :: rest, cur =>
    (List.zipWith (fun s len => encodeStep maxLen len l s) cur sl) ::
      chainP sl maxLen rest (List.zipWith (fun s len => encodeStep maxLen len l s) cur sl)

theorem runLayersP_zero (variational training : Bool) (bern : ℕ → ℕ → ℕ → ℕ → ℚ)
    (sl : List ℕ) (maxLen : ℕ) (hnz : sl.any (fun m => m = 0) = false) :
    ∀ (layers : List Layer) (idx : ℕ) (cur : List (List V)),
      ∃ hns, runLayersP 0 variational training bern sl maxLen layers idx cur =
        Except.ok (chainP sl maxLen layers cur, hns) := by
  intro layers
  induction layers with
  | nil => intro idx cur; exact ⟨[], rfl⟩
  | cons l rest ih =>
    intro idx cur
    obtain ⟨hns, hrec⟩ := ih (idx + 1)
      (List.zipWith (fun s len => encodeStep maxLen len l s) cur sl)
    refine ⟨(List.zipWith (fun s len => l.finalH (s.take len)) cur sl) :: hns, ?_⟩
    simp only [runLayersP, chainP]
    rw [if_neg (lt_irrefl (0 : ℚ))]
    rw [if_neg (by rw [hnz]; exact fun h => Bool.noConfusion h)]
    unfold encodeStep at hrec
    rw [hrec]
    rfl

theorem zipWith_comp_right {α β γ δ : Type} (f : γ → β → δ) (g : α → β → γ) :
    ∀ (a : List α) (b : List β),
      List.zipWith f (List.zipWith g a b) b = List.zipWith (fun x y => f (g x y) y) a b := by
  intro a
  induction a with
  | nil => intro b; simp
  | cons x xs ih =>
    intro b
    cases b with
    | nil => simp
    | cons y ys => simp [ih]

theorem zipWith_const_left {α β : Type} :
    ∀ (a : List α) (b : List β), a.length ≤ b.length →
      List.zipWith (fun x _ => x) a b = a := by
  intro a
  induction a with
  | nil => intro b _; simp
  | cons x xs ih =>
    intro b hab
    cases b with
    | nil => simp at hab
    | cons y ys => simp [ih ys (by simpa using hab)]

theorem chainP_getLastD (sl : List ℕ) (maxLen : ℕ) :
    ∀ (layers : List Layer) (cur : List (List V)), cur.length = sl.length →
      (chainP sl maxLen layers cur).getLastD cur =
        List.zipWith (fun s len => encodeChain layers maxLen len s) cur sl := by
  intro layers
  induction layers with
  | nil =>
    intro cur hlen
    have : List.zipWith (fun (s : List V) (_ : ℕ) => s) cur sl = cur :=
      zipWith_const_left cur sl (by omega)
    simpa [chainP, encodeChain] using this.symm
  | cons l rest ih =>
    intro cur hlen
    have hol : (List.zipWith (fun s len => encodeStep maxLen len l s) cur sl).length =
        sl.length := by
      rw [List.length_zipWith]
      omega
    simp only [chainP, List.getLastD_cons]
    rw [ih _ hol, zipWith_comp_right]
    rfl

theorem zipWith_map_map {α β γ δ : Type} (g : β → γ → δ) (a : α → β) (b2 : α → γ) :
    ∀ (rows : List α),
      List.zipWith g (rows.map a) (rows.map b2) = rows.map (fun r => g (a r) (b2 r)) := by
  intro rows
  induction rows with
  | nil => simp
  | cons r t ih => simp [ih]

/-- The composition of the first `k` cells, one function per layer output. -/
def cellComps : List Layer → List (List V → List V)
  | [] => []
  | l :: rest => l.cell :: (cellComps rest).map (fun f => f ∘ l.cell)

theorem chainU_map_comps : ∀ (layers : List Layer) (rows : List (List V)),
    chainU layers rows = (cellComps layers).map (fun f => rows.map f) := by
  intro layers
  induction layers with
  | nil => intro rows; rfl
  | cons l rest ih =>
    intro rows
    simp only [chainU, cellComps, List.map_cons]
    refine List.cons_eq_cons.mpr ⟨rfl, ?_⟩
    rw [ih (rows.map l.cell), List.map_map]
    apply List.map_congr_left
    intro f _
    simp [Function.comp, List.map_map]

/-- Per-sequence feature concatenation across layer outputs
(`torch.cat(outputs, 2)` seen from one batch element). -/
def catRow : List (List V → List V) → List V → List V
  | [], _ => []
  | [f], s => f s
  | f :: rest, s => List.zipWith (fun a b => a ++ b) (f s) (catRow rest s)

theorem catFeat_maps : ∀ (fns : List (List V → List V)) (rows : List (List V)),
    fns ≠ [] →
    catFeat (fns.map (fun f => rows.map f)) = rows.map (fun s => catRow fns s) := by
  intro fns
  induction fns with
  | nil => intro rows h; exact absurd rfl h
  | cons f rest ih =>
    intro rows _
    cases rest with
    | nil => simp [catFeat, catRow]
    | cons f2 rest2 =>
      have ihr := ih rows (fun h => List.noConfusion h)
      simp only [List.map_cons] at ihr ⊢
      show List.zipWith (List.zipWith (fun a b => a ++ b)) (rows.map f)
          (catFeat (rows.map f2 :: rest2.map (fun f => rows.map f))) = _
      rw [ihr, zipWith_map_map]
      rfl

theorem getLastD_cons_irrel {α : Type} (a : α) (l : List α) (d1 d2 : α) :
    (a :: l).getLastD d1 = (a :: l).getLastD d2 := by
  rw [List.getLastD_cons, List.getLastD_cons]

theorem getLastD_map_fns : ∀ (fns : List (List V → List V)) (f0 : List V → List V)
    (rows : List (List V)),
    (fns.map (fun f => rows.map f)).getLastD (rows.map f0) =
      rows.map (fun s => (fns.getLastD f0) s) := by
  intro fns
  induction fns with
  | nil => intro f0 rows; rfl
  | cons f1 rest ih =>
    intro f0 rows
    simp only [List.map_cons, List.getLastD_cons]
    exact ih f1 rows

theorem getLastD_map_fns_cons (f0 : List V → List V) (fns : List (List V → List V))
    (rows : List (List V)) :
    ((f0 :: fns).map (fun f => rows.map f)).getLastD rows =
      rows.map (fun s => ((f0 :: fns).getLastD id) s) := by
  simp only [List.map_cons, List.getLastD_cons]
  exact getLastD_map_fns fns f0 rows

theorem unsortRows_perm_map {α : Type} (p q : List ℕ) (n : ℕ) (g : ℕ → List α)
    (hpl : p.length = n) (hql : q.length = n) (hqm : ∀ i ∈ q, i < n)
    (hinv : ∀ b, b < n → p.getD (q.getD b 0) 0 = b) :
    unsortRows q (p.map g) = (List.range n).map g := by
  apply List.ext_getElem
  · simp [unsortRows, hql, List.length_range]
  · intro b h1 h2
    have hb : b < n := by simpa [unsortRows, hql] using h1
    have hbq : b < q.length := by omega
    have hgd : q.getD b 0 = q[b] := List.getD_eq_getElem q 0 hbq
    have hqblt : q.getD b 0 < n := by
      rw [hgd]
      exact hqm _ (List.getElem_mem hbq)
    have h1m : b < (q.map (fun i => (p.map g).getD i [])).length := h1
    show (q.map (fun i => (p.map g).getD i []))[b] = _
    rw [List.getElem_map, List.getElem_map, List.getElem_range, ← hgd]
    rw [map_getD g p _ 0 [] (by omega)]
    rw [hinv b hb]

theorem countNonPad_all_false : ∀ (row : List Bool), (∀ b ∈ row, b = false) →
    countNonPad row = row.length := by
  intro row
  induction row with
  | nil => intro _; rfl
  | cons b t ih =>
    intro hall
    have hb : b = false := hall b (List.mem_cons_self _ _)
    have ht := ih (fun c hc => hall c (List.mem_cons_of_mem _ hc))
    simp [countNonPad, hb] at ht ⊢
    omega

theorem countNonPad_pos : ∀ (row : List Bool), false ∈ row → 0 < countNonPad row := by
  intro row
  induction row with
  | nil => intro h; cases h
  | cons b t ih =>
    intro hmem
    rcases List.mem_cons.mp hmem with hb | ht
    · simp [countNonPad, ← hb]
    · have := ih ht
      simp [countNonPad] at this ⊢
      rcases b with _ | _ <;> simp <;> omega

theorem brnnLengths_vec (mask : List (List Bool)) (h : mask.length ≠ 1) :
    brnnLengths mask = Squeezed.vec (mask.map countNonPad) := by
  unfold brnnLengths squeeze1
  rw [if_neg (by simpa using h)]

theorem foldr_max_const : ∀ (l : List ℕ) (T : ℕ), l ≠ [] → (∀ m ∈ l, m = T) →
    l.foldr max 0 = T := by
  intro l
  induction l with
  | nil => intro T h _; exact absurd rfl h
  | cons a t ih =>
    intro T _ hall
    have ha : a = T := hall a (List.mem_cons_self _ _)
    cases t with
    | nil => simp [ha]
    | cons b t2 =>
      have ht := ih T (fun h => List.noConfusion h)
        (fun m hm => hall m (List.mem_cons_of_mem _ hm))
      simp only [List.foldr_cons] at ht ⊢
      rw [ht, ha]
      simp

theorem any_zero_false_of_pos (l : List ℕ) (h : ∀ m ∈ l, 0 < m) :
    (l.any fun m => m = 0) = false := by
  rw [List.any_eq_false]
  intro m hm
  simp only [decide_eq_true_eq]
  have := h m hm
  omega

theorem zipWith_encodeStep_map (l : Layer) (T : ℕ)
    (hcell : ∀ s, (l.cell s).length = s.length) :
    ∀ (cur : List (List V)) (sl : List ℕ), cur.length = sl.length →
      (∀ m ∈ sl, m = T) → (∀ s ∈ cur, s.length = T) →
      List.zipWith (fun s len => encodeStep T len l s) cur sl = cur.map l.cell := by
  intro cur
  induction cur with
  | nil => intro sl _ _ _; simp
  | cons s rest ih =>
    intro sl hlen hslT hcurT
    cases sl with
    | nil => simp at hlen
    | cons m t =>
      have hm : m = T := hslT m (List.mem_cons_self _ _)
      have hs : s.length = T := hcurT s (List.mem_cons_self _ _)
      have htail := ih t (by simpa using hlen)
        (fun m2 hm2 => hslT m2 (List.mem_cons_of_mem _ hm2))
        (fun s2 hs2 => hcurT s2 (List.mem_cons_of_mem _ hs2))
      simp only [List.zipWith_cons_cons, List.map_cons, htail]
      refine List.cons_eq_cons.mpr ⟨?_, rfl⟩
      unfold encodeStep padTo
      rw [hm, ← hs, List.take_length, hcell s, hs, Nat.sub_self]
      simp

theorem chainP_eq_chainU (T : ℕ) (sl : List ℕ) (hslT : ∀ m ∈ sl, m = T) :
    ∀ (layers : List Layer) (cur : List (List V)),
      (∀ l ∈ layers, ∀ s, (l.cell s).length = s.length) →
      cur.length = sl.length → (∀ s ∈ cur, s.length = T) →
      chainP sl T layers cur = chainU layers cur := by
  intro layers
  induction layers with
  | nil => intro cur _ _ _; rfl
  | cons l rest ih =>
    intro cur hcells hlen hcurT
    have hl := hcells l (List.mem_cons_self _ _)
    have hstep := zipWith_encodeStep_map l T hl cur sl hlen hslT hcurT
    simp only [chainP, chainU, hstep]
    refine List.cons_eq_cons.mpr ⟨rfl, ?_⟩
    refine ih (cur.map l.cell) (fun l2 hl2 => hcells l2 (List.mem_cons_of_mem _ hl2))
      (by rw [List.length_map]; exact hlen) ?_
    intro s2 hs2
    obtain ⟨s, hs, rfl⟩ := List.mem_map.mp hs2
    rw [hl s]
    exact hcurT s hs

/-- Per-sequence output selection of `StackedBRNN` (concatenate the layer
outputs along features, or keep the last layer). -/
def selRow (concat : Bool) (fns : List (List V → List V)) (s : List V) : List V :=
  if concat then catRow fns s else (fns.getLastD id) s

theorem cellComps_ne_nil (l0 : Layer) (lt : List Layer) :
    cellComps (l0 :: lt) ≠ [] := by
  simp [cellComps]

theorem sel_chainU_map (layers : List Layer) (hne : layers ≠ []) (concat : Bool)
    (rows : List (List V)) :
    (if concat then catFeat (chainU layers rows) else (chainU layers rows).getLastD rows) =
      rows.map (selRow concat (cellComps layers)) := by
  cases layers with
  | nil => exact absurd rfl hne
  | cons l0 lt =>
    rw [chainU_map_comps]
    cases concat with
    | true =>
      simp only [if_true]
      rw [catFeat_maps _ rows (cellComps_ne_nil l0 lt)]
      apply List.map_congr_left
      intro s _
      simp [selRow]
    | false =>
      simp only [Bool.false_eq_true, if_false]
      have hcc : cellComps (l0 :: lt) = l0.cell :: (cellComps lt).map (fun f => f ∘ l0.cell) :=
        rfl
      rw [hcc, getLastD_map_fns_cons]
      apply List.map_congr_left
      intro s _
      simp [selRow, hcc]

theorem forwardUnpadded_zero (layers : List Layer) (hne : layers ≠ [])
    (variational training concat dOut : Bool) (bern : ℕ → ℕ → ℕ → ℕ → ℚ)
    (rows : List (List V)) :
    StackedBRNN.forwardUnpadded layers 0 variational training concat dOut bern rows =
      rows.map (selRow concat (cellComps layers)) := by
  unfold StackedBRNN.forwardUnpadded
  rw [runLayersU_zero]
  have hsel := sel_chainU_map layers hne concat rows
  dsimp only
  rw [hsel]
  cases dOut with
  | false => simp
  | true => simp [dropout3_zero]

/-- `lengths` as computed by `_forward_padded` (before `squeeze()`). -/
def brnnL (mask : List (List Bool)) : List ℕ := mask.map countNonPad

/-- `lengths[idx_sort]` — the true lengths in descending batch order. -/
def brnnSorted (mask : List (List Bool)) : List ℕ :=
  (argsortDesc (brnnL mask)).map (fun i => (brnnL mask).getD i 0)

/-- The longest true length, to which `pad_packed_sequence` re-pads. -/
def brnnMax (mask : List (List Bool)) : ℕ := (brnnSorted mask).foldr max 0

/-- `x.index_select(0, idx_sort)` — the batch in descending-length order. -/
def brnnInput (x : List (List V)) (mask : List (List Bool)) : List (List V) :=
  (argsortDesc (brnnL mask)).map (fun i => x.getD i [])

/-- With dropout disabled, a batch of at least two sequences and no
zero-length sequence, `_forward_padded` returns the unsorted selection of
the packed layer chain. -/
theorem forwardPadded_zero_ok (layers : List Layer) (hne : layers ≠ [])
    (variational training concat dOut : Bool) (bern : ℕ → ℕ → ℕ → ℕ → ℚ)
    (x : List (List V)) (mask : List (List Bool))
    (hn1 : mask.length ≠ 1)
    (hnz : ((brnnSorted mask).any fun m => m = 0) = false) :
    StackedBRNN.forwardPadded layers 0 variational training concat dOut false bern x mask =
      Except.ok (BrnnOut.seq (unsortRows (argsortAsc (argsortDesc (brnnL mask)))
        (if concat then
          catFeat (chainP (brnnSorted mask) (brnnMax mask) layers (brnnInput x mask))
        else (chainP (brnnSorted mask) (brnnMax mask) layers (brnnInput x mask)).getLastD
          (brnnInput x mask)))) := by
  obtain ⟨hns, hrun⟩ := runLayersP_zero variational training bern (brnnSorted mask)
    (brnnMax mask) hnz layers 0 (brnnInput x mask)
  unfold StackedBRNN.forwardPadded
  rw [brnnLengths_vec mask hn1]
  unfold brnnMax brnnSorted brnnInput brnnL at hrun ⊢
  dsimp only
  rw [hrun]
  cases layers with
  | nil => exact absurd rfl hne
  | cons l0 lt =>
    cases concat with
    | true =>
      simp only [chainP, Bool.false_eq_true, if_false, if_true]
      rw [if_neg (fun h : dOut = true ∧ (0 : ℚ) < 0 => lt_irrefl 0 h.2)]
    | false =>
      simp only [Bool.false_eq_true, if_false]
      rw [if_neg (fun h : dOut = true ∧ (0 : ℚ) < 0 => lt_irrefl 0 h.2)]

theorem range_map_getD {α β : Type} (x : List α) (F : α → β) (d : α) :
    (List.range x.length).map (fun i => F (x.getD i d)) = x.map F := by
  apply List.ext_getElem
  · simp [List.length_range]
  · intro b h1 h2
    rw [List.getElem_map, List.getElem_map, List.getElem_range,
      List.getD_eq_getElem _ d (by simpa using h2)]

/-- Claim C3 (amended): for every batch of at least two sequences, each of
uniform positive length with an all-false mask (no padding anywhere), a
`StackedBRNN` with at least one layer whose recurrent cells are
length-preserving produces the same output on its padded and unpadded
paths when dropout is disabled. -/
theorem brnn_padded_unpadded_equiv :
    ∀ (layers : List Layer) (variational training concatLayers dropoutOutput : Bool)
      (bern : ℕ → ℕ → ℕ → ℕ → ℚ) (x : List (List V)) (mask : List (List Bool)) (T : ℕ),
      layers ≠ [] →
      (∀ l ∈ layers, ∀ s, (l.cell s).length = s.length) →
      2 ≤ mask.length → 1 ≤ T →
      x.length = mask.length →
      (∀ b, b < mask.length → (x.getD b []).length = T) →
      (∀ b, b < mask.length → (mask.getD b []).length = T) →
      (∀ b, b < mask.length → ∀ m ∈ mask.getD b [], m = false) →
      StackedBRNN.forwardPadded layers 0 variational training concatLayers dropoutOutput
          false bern x mask =
        Except.ok (BrnnOut.seq (StackedBRNN.forwardUnpadded layers 0 variational training
          concatLayers dropoutOutput bern x)) := by
  intro layers variational training concat dOut bern x mask T hne hcells hn2 hT hxlen
    hxrow hmrow hmfalse
  have hLlen : (brnnL mask).length = mask.length := by simp [brnnL]
  have hLb : ∀ b, b < mask.length → (brnnL mask).getD b 0 = T := by
    intro b hb
    unfold brnnL
    rw [map_getD countNonPad mask b [] 0 (by omega)]
    rw [countNonPad_all_false _ (hmfalse b hb)]
    exact hmrow b hb
  have hplen : (argsortDesc (brnnL mask)).length = mask.length := by
    rw [argsortDesc_length, hLlen]
  have hpmem : ∀ i ∈ argsortDesc (brnnL mask), i < mask.length := by
    intro i hi
    have := argsortDesc_mem_lt (brnnL mask) hi
    omega
  have hslmem : ∀ m ∈ brnnSorted mask, m = T := by
    intro m hm
    unfold brnnSorted at hm
    obtain ⟨i, hi, rfl⟩ := List.mem_map.mp hm
    exact hLb i (hpmem i hi)
  have hsllen : (brnnSorted mask).length = mask.length := by
    unfold brnnSorted
    rw [List.length_map, hplen]
  have hnz : ((brnnSorted mask).any fun m => m = 0) = false := by
    apply any_zero_false_of_pos
    intro m hm
    rw [hslmem m hm]
    omega
  have hmax : brnnMax mask = T := by
    unfold brnnMax
    refine foldr_max_const _ T ?_ hslmem
    intro hnil
    rw [hnil] at hsllen
    simp at hsllen
    omega
  have hinrows : ∀ s ∈ brnnInput x mask, s.length = T := by
    intro s hs
    unfold brnnInput at hs
    obtain ⟨i, hi, rfl⟩ := List.mem_map.mp hs
    exact hxrow i (hpmem i hi)
  rw [forwardPadded_zero_ok layers hne variational training concat dOut bern x mask
    (by omega) hnz, hmax,
    chainP_eq_chainU T (brnnSorted mask) hslmem layers (brnnInput x mask) hcells
      (by unfold brnnInput; rw [List.length_map, hplen]; omega) hinrows,
    sel_chainU_map layers hne concat (brnnInput x mask)]
  have hmm : (brnnInput x mask).map (selRow concat (cellComps layers)) =
      (argsortDesc (brnnL mask)).map
        (fun i => selRow concat (cellComps layers) (x.getD i [])) := by
    unfold brnnInput
    rw [List.map_map]
    rfl
  rw [hmm,
    unsortRows_perm_map (argsortDesc (brnnL mask)) (argsortAsc (argsortDesc (brnnL mask)))
      mask.length (fun i => selRow concat (cellComps layers) (x.getD i [])) hplen
      (by rw [argsortAsc_length, hplen])
      (by
        intro i hi
        have := argsortAsc_mem_lt _ hi
        omega)
      (by
        intro b hb
        exact argsort_comp_id (brnnL mask) b (by omega))]
  have hrange : (List.range mask.length).map
      (fun i => selRow concat (cellComps layers) (x.getD i [])) =
      x.map (selRow concat (cellComps layers)) := by
    rw [← hxlen]
    exact range_map_getD x (selRow concat (cellComps layers)) []
  rw [hrange, forwardUnpadded_zero layers hne variational training concat dOut bern x]

/-- Claim C3 counterexample: a batch of one full-length sequence (no
padding at all) — the padded path raises on the 0-dimensional squeezed
length tensor while the unpadded path returns an encoding, so the two
paths are not equivalent on every padding-free batch. -/
theorem brnn_padded_unpadded_batch1_cex :
    StackedBRNN.forwardPadded [⟨fun s => s, fun _ => [], 1⟩] 0 false true false false false
      (fun _ _ _ _ => 1) [[[1]]] [[false]] ≠
      Except.ok (BrnnOut.seq (StackedBRNN.forwardUnpadded [⟨fun s => s, fun _ => [], 1⟩] 0
        false true false false (fun _ _ _ _ => 1) [[[1]]])) := by
  have hsc : brnnLengths [[false]] = Squeezed.scalar 1 := by decide
  have hpad : StackedBRNN.forwardPadded [⟨fun s => s, fun _ => [], 1⟩] 0 false true false
      false false (fun _ _ _ _ => 1) [[[1]]] [[false]] =
      Except.error PyError.zeroDimIndexError := by
    simp [StackedBRNN.forwardPadded, hsc]
  rw [hpad]
  exact fun h => Except.noConfusion h

/-- Witness for C3 at a concrete two-sequence batch with the identity cell. -/
theorem brnn_padded_unpadded_equiv_w :
    StackedBRNN.forwardPadded [⟨fun s => s, fun _ => [], 1⟩] 0 false true false false
        false (fun _ _ _ _ => 1) [[[1]], [[2]]] [[false], [false]] =
      Except.ok (BrnnOut.seq (StackedBRNN.forwardUnpadded [⟨fun s => s, fun _ => [], 1⟩] 0
        false true false false (fun _ _ _ _ => 1) [[[1]], [[2]]])) :=
  brnn_padded_unpadded_equiv [⟨fun s => s, fun _ => [], 1⟩] false true false false
    (fun _ _ _ _ => 1) [[[1]], [[2]]] [[false], [false]] 1
    (fun h => List.noConfusion h)
    (by
      intro l hl s
      rcases List.mem_singleton.mp hl with rfl
      rfl)
    (by norm_num) (by norm_num) rfl (by decide) (by decide) (by decide)

/-- Claim C5 counterexample: for a batch of one sequence the sort/indexing
in `_forward_padded` raises (0-dim `squeeze()`), so no output row exists
to restore, falsifying the claim's quantification over every input batch. -/
theorem brnn_sort_unsort_batch1_cex :
    StackedBRNN.forwardPadded [⟨fun s => s, fun _ => [], 1⟩] 0 false true false false false
      (fun _ _ _ _ => 1) [[[2]]] [[false]] = Except.error PyError.zeroDimIndexError := by
  have hsc : brnnLengths [[false]] = Squeezed.scalar 1 := by decide
  simp [StackedBRNN.forwardPadded, hsc]

/-- Claim C5 (amended): in `_forward_padded`, the composition of `idx_sort`
with `idx_unsort` is the identity permutation on batch indices (for every
mask); and for every batch of at least two sequences, each with at least
one unmasked position, with dropout disabled, output row `b` is exactly
the packed-path encoding of input sequence `b` (truncate to its true
length, run the cells, re-pad to the longest batch length). -/
theorem brnn_sort_unsort_restores_order :
    (∀ (mask : List (List Bool)) (b : ℕ), b < mask.length →
      (argsortDesc (brnnL mask)).getD
        ((argsortAsc (argsortDesc (brnnL mask))).getD b 0) 0 = b) ∧
    (∀ (layers : List Layer) (variational training dOut : Bool)
        (bern : ℕ → ℕ → ℕ → ℕ → ℚ) (x : List (List V)) (mask : List (List Bool)),
      layers ≠ [] →
      2 ≤ mask.length →
      x.length = mask.length →
      (∀ b, b < mask.length → false ∈ mask.getD b []) →
      ∃ rows, StackedBRNN.forwardPadded layers 0 variational training false dOut false
          bern x mask = Except.ok (BrnnOut.seq rows) ∧
        rows.length = mask.length ∧
        ∀ b, b < mask.length → rows.getD b [] =
          encodeChain layers (brnnMax mask) (countNonPad (mask.getD b []))
            (x.getD b [])) := by
  constructor
  · intro mask b hb
    exact argsort_comp_id (brnnL mask) b (by simp [brnnL]; omega)
  · intro layers variational training dOut bern x mask hne hn2 hxlen hum
    have hLlen : (brnnL mask).length = mask.length := by simp [brnnL]
    have hLb : ∀ b, b < mask.length →
        (brnnL mask).getD b 0 = countNonPad (mask.getD b []) := by
      intro b hb
      unfold brnnL
      exact map_getD countNonPad mask b [] 0 (by omega)
    have hplen : (argsortDesc (brnnL mask)).length = mask.length := by
      rw [argsortDesc_length, hLlen]
    have hpmem : ∀ i ∈ argsortDesc (brnnL mask), i < mask.length := by
      intro i hi
      have := argsortDesc_mem_lt (brnnL mask) hi
      omega
    have hnz : ((brnnSorted mask).any fun m => m = 0) = false := by
      apply any_zero_false_of_pos
      intro m hm
      unfold brnnSorted at hm
      obtain ⟨i, hi, rfl⟩ := List.mem_map.mp hm
      rw [hLb i (hpmem i hi)]
      exact countNonPad_pos _ (hum i (hpmem i hi))
    rw [forwardPadded_zero_ok layers hne variational training false dOut bern x mask
      (by omega) hnz]
    simp only [Bool.false_eq_true, if_false]
    have hlast := chainP_getLastD (brnnSorted mask) (brnnMax mask) layers (brnnInput x mask)
      (by
        unfold brnnInput brnnSorted
        rw [List.length_map, List.length_map])
    rw [hlast]
    have hzip : List.zipWith (fun s len => encodeChain layers (brnnMax mask) len s)
        (brnnInput x mask) (brnnSorted mask) =
        (argsortDesc (brnnL mask)).map (fun i =>
          encodeChain layers (brnnMax mask) ((brnnL mask).getD i 0) (x.getD i [])) := by
      unfold brnnInput brnnSorted
      exact zipWith_map_map (fun s len => encodeChain layers (brnnMax mask) len s)
        (fun i => x.getD i []) (fun i => (brnnL mask).getD i 0) (argsortDesc (brnnL mask))
    rw [hzip,
      unsortRows_perm_map (argsortDesc (brnnL mask)) (argsortAsc (argsortDesc (brnnL mask)))
        mask.length (fun i =>
          encodeChain layers (brnnMax mask) ((brnnL mask).getD i 0) (x.getD i [])) hplen
        (by rw [argsortAsc_length, hplen])
        (by
          intro i hi
          have := argsortAsc_mem_lt _ hi
          omega)
        (by
          intro b hb
          exact argsort_comp_id (brnnL mask) b (by omega))]
    refine ⟨_, rfl, by rw [List.length_map, List.length_range], ?_⟩
    intro b hb
    rw [map_getD _ (List.range mask.length) b 0 [] (by rw [List.length_range]; omega)]
    rw [List.getD_eq_getElem (List.range mask.length) 0 (by rw [List.length_range]; omega),
      List.getElem_range]
    rw [hLb b hb]

/-- Witness for C5: a concrete two-sequence batch with distinct true
lengths (1 and 2), exercising a non-trivial sort permutation. -/
theorem brnn_sort_unsort_restores_order_w :
    ((argsortDesc (brnnL [[true, false], [false, false]])).getD
      ((argsortAsc (argsortDesc (brnnL [[true, false], [false, false]]))).getD 0 0) 0 = 0) ∧
    (∃ rows, StackedBRNN.forwardPadded [⟨fun s => s, fun _ => [], 1⟩] 0 false true false
        false false (fun _ _ _ _ => 1) [[[1], [2]], [[3], [4]]]
        [[true, false], [false, false]] = Except.ok (BrnnOut.seq rows) ∧
      rows.length = ([[true, false], [false, false]] : List (List Bool)).length ∧
      ∀ b, b < ([[true, false], [false, false]] : List (List Bool)).length →
        rows.getD b [] = encodeChain [⟨fun s => s, fun _ => [], 1⟩]
          (brnnMax [[true, false], [false, false]])
          (countNonPad (([[true, false], [false, false]] : List (List Bool)).getD b []))
          (([[[1], [2]], [[3], [4]]] : List (List V)).getD b [])) :=
  ⟨brnn_sort_unsort_restores_order.1 [[true, false], [false, false]] 0 (by decide),
   brnn_sort_unsort_restores_order.2 [⟨fun s => s, fun _ => [], 1⟩] false true false
     (fun _ _ _ _ => 1) [[[1], [2]], [[3], [4]]] [[true, false], [false, false]]
     (fun h => List.noConfusion h) (by decide) rfl (by decide)⟩
